import Mathlib

/-!
Verification of the chain-search / discrete-event simulation core of the
CoH DPS finder (worker module `optimizer-worker` plus the `arcanatime`
time model).  JavaScript numbers are modelled as exact rationals (`ℚ`);
JS objects become Lean structures; the cooldown table (a JS object used
as a string-keyed map with `|| 0` default) becomes an association list
with `List.lookup` and default `0`.
-/

namespace CohDps

/-! ## Time model (`arcanatime.js`)

Source:
```
const TICK = 0.132;
export function arcanaTime(castSeconds) {
  if (castSeconds <= 0) return TICK; // instant cast still takes 1 tick
  return (Math.ceil(castSeconds / TICK) + 1) * TICK;
}
```
-/

def TICK : ℚ := 0.132

def arcanaTime (castSeconds : ℚ) : ℚ :=
  if castSeconds ≤ 0 then TICK
  else (⌈castSeconds / TICK⌉ + 1) * TICK

/-! ## Worker constants (`optimizer-worker.js`) -/

def MAX_CHAIN_LENGTH : Nat := 8
def TOP_N : Nat := 5
def DEFIANCE_WARMUP_CYCLES : Nat := 3
def maxWaitFactor : ℚ := 3
def MAX_RESULTS_PER_LENGTH : Nat := 500
def MAX_COMBOS_PER_LENGTH : Nat := 2000000
def dpsPruneFrac : ℚ := 0.65
def BUFF_WARMUP_CYCLES : Nat := 2
def BUFF_MEASURE_CYCLES : Nat := 3

/-! ## Data model

`Power` is the flat record the worker consumes (after the upstream
parsing/enhancement layers): the fields read anywhere inside
`optimizeChains` / `searchChains` / the simulators.  A power's optional
Defiance self-buff descriptor is `{scale, duration, stacking}`; the
generic buff list (`p.buffs`, used by the overlay simulator) carries
`{table, resolvedScale, duration, stacking}` entries.  Stacking modes in
the data are the strings "Stack" / "Replace"; the code only ever
compares against "Replace", so we keep them as strings for fidelity.
-/

structure DefianceBuff where
  scale : ℚ
  duration : ℚ
  stacking : String
  deriving Repr, DecidableEq

structure BuffEntry where
  table : String
  resolvedScale : ℚ
  duration : ℚ
  stacking : String
  deriving Repr, DecidableEq

structure Power where
  slug : String
  name : String
  totalDamage : ℚ
  castTime : ℚ
  arcanaTime : ℚ
  rechargeTime : ℚ
  enhRecharge : ℚ
  effectiveRecharge : ℚ
  activationLatency : ℚ
  enduranceCost : ℚ
  dpa : ℚ
  effectArea : String
  defiance : Option DefianceBuff
  buffs : List BuffEntry
  isMelee : Bool
  deriving Repr, DecidableEq

instance : Inhabited Power :=
  ⟨⟨"", "", 0, 0, 0, 0, 0, 0, 0, 0, 0, "", none, [], false⟩⟩

end CohDps

namespace CohDps

/-- C5: Quantization.  For every nominal duration `d ≤ 0`, `arcanaTime d`
returns exactly one tick `0.132`; for every `d > 0` it returns
`(⌈d / 0.132⌉ + 1) * 0.132`; in particular `arcanaTime 1 = 1.188`. -/
theorem arcanaTime_quantization :
    (∀ d : ℚ, d ≤ 0 → arcanaTime d = 0.132) ∧
    (∀ d : ℚ, 0 < d → arcanaTime d = (⌈d / 0.132⌉ + 1) * 0.132) ∧
    arcanaTime 1 = 1.188 := by
  refine ⟨fun d hd => ?_, fun d hd => ?_, ?_⟩
  · simp [arcanaTime, TICK, hd]
  · simp [arcanaTime, TICK, not_le.mpr hd]
  · have h8 : (⌈(250 : ℚ) / 33⌉ : ℤ) = 8 := by
      rw [Int.ceil_eq_iff] <;> norm_num
    simp only [arcanaTime, TICK]
    norm_num [h8]

/-- Witness for C5: both implications of `arcanaTime_quantization`
instantiated at concrete durations. -/
theorem arcanaTime_quantization_w :
    arcanaTime (-1) = 0.132 ∧ arcanaTime 1 = (⌈(1 : ℚ) / 0.132⌉ + 1) * 0.132 :=
  ⟨arcanaTime_quantization.1 (-1) (by norm_num),
   arcanaTime_quantization.2.1 1 (by norm_num)⟩

/-! ## Feasibility analyzer (`isChainFeasible`, worker lines 849-882)

Source:
```
function isChainFeasible(chain) {
  const latency = chain[0]?.activationLatency || 0;
  const totalTime = chain.reduce((sum, p) => sum + p.arcanaTime + latency, 0);
  const usagesBySlug = {};
  let timePos = 0;
  for (let i = 0; i < chain.length; i++) {
    const slug = chain[i].slug;
    if (!usagesBySlug[slug]) usagesBySlug[slug] = [];
    usagesBySlug[slug].push({ time: timePos, recharge: chain[i].effectiveRecharge });
    timePos += chain[i].arcanaTime + latency;
  }
  for (const [slug, usages] of Object.entries(usagesBySlug)) {
    for (let i = 0; i < usages.length; i++) {
      const nextIdx = (i + 1) % usages.length;
      let gap;
      if (nextIdx > i) gap = usages[nextIdx].time - usages[i].time;
      else gap = (totalTime - usages[i].time) + usages[nextIdx].time;
      if (gap < usages[i].recharge - 0.001) return false;
    }
  }
  return true;
}
```
A JS object used as a map preserves first-insertion key order; we model
`usagesBySlug` as an ordered association list built by `addUsage`.
-/

structure Usage where
  time : ℚ
  recharge : ℚ
  deriving Repr, DecidableEq

/-- `chain[0]?.activationLatency || 0` (for latency `0` the JS `|| 0`
yields `0` as well, so the truthiness test is value-equivalent). -/
def chainLatency (chain : List Power) : ℚ :=
  match chain with
  | [] => 0
  | p :: _ => p.activationLatency

/-- `chain.reduce((sum, p) => sum + p.arcanaTime + latency, 0)`. -/
def chainTotalTime (chain : List Power) (latency : ℚ) : ℚ :=
  chain.foldl (fun sum p => sum + p.arcanaTime + latency) 0

/-- Append a usage to the group of `slug`, creating the group at the end
when absent (JS object first-insertion key order). -/
def addUsage (groups : List (String × List Usage)) (slug : String) (u : Usage) :
    List (String × List Usage) :=
  match groups with
  | [] => [(slug, [u])]
  | (s, us) :: rest =>
      if s = slug then (s, us ++ [u]) :: rest
      else (s, us) :: addUsage rest slug u

/-- The `usagesBySlug` table: fold over the chain carrying `timePos`. -/
def buildUsages (chain : List Power) (latency : ℚ) : List (String × List Usage) :=
  (chain.foldl
    (fun st p =>
      (addUsage st.1 p.slug ⟨st.2, p.effectiveRecharge⟩,
       st.2 + p.arcanaTime + latency))
    ([], 0)).1

/-- One iteration of the inner `for (let i ...)` loop: the wrap-aware gap
check between occurrence `i` and occurrence `(i+1) % len`. -/
def usageGapOk (totalTime : ℚ) (usages : List Usage) (i : Nat) : Bool :=
  match usages[i]?, usages[(i + 1) % usages.length]? with
  | some u, some v =>
      let gap := if (i + 1) % usages.length > i then v.time - u.time
                 else (totalTime - u.time) + v.time
      if gap < u.recharge - 1/1000 then false else true
  | _, _ => true

def isChainFeasible (chain : List Power) : Bool :=
  let latency := chainLatency chain
  let totalTime := chainTotalTime chain latency
  let groups := buildUsages chain latency
  groups.all fun g => (List.range g.2.length).all fun i => usageGapOk totalTime g.2 i

/-! ### Spec-side feasibility predicate (claim C2 / spec §4.2)

Written from the spec's words: occurrence offsets are cumulative sums of
`duration + latency` over the preceding entries; for every action
identifier and every cyclically consecutive pair of its occurrences
(the last wrapping to the first plus one full cycle length), the
wrap-aware gap must be at least that occurrence's `effectiveRecharge`
minus the tolerance `1e-3`. -/

/-- Cumulative `duration + latency` offset of chain position `i`. -/
def offsetAt (chain : List Power) (latency : ℚ) (i : Nat) : ℚ :=
  ((chain.take i).map (fun p => p.arcanaTime + latency)).sum

/-- Full cycle length: the sum of `duration + latency` over the chain. -/
def cycleLen (chain : List Power) (latency : ℚ) : ℚ :=
  (chain.map (fun p => p.arcanaTime + latency)).sum

/-- Chain positions at which identifier `s` occurs, in order. -/
def occurrences : List Power → String → List Nat
  | [], _ => []
  | p :: rest, s =>
      (if p.slug = s then [0] else []) ++ (occurrences rest s).map (· + 1)

/-- Wrap-aware gap between the occurrences at chain positions `a` and
`b`: for a forward pair the difference of offsets, for the wrapping pair
(including an identifier's sole occurrence paired with itself) the
remainder of the cycle after `a` plus the offset of `b`. -/
def specGap (chain : List Power) (latency : ℚ) (a b : Nat) : ℚ :=
  if a < b then offsetAt chain latency b - offsetAt chain latency a
  else cycleLen chain latency - offsetAt chain latency a + offsetAt chain latency b

def FeasibleSpec (chain : List Power) : Prop :=
  ∀ s : String, ∀ j a b : Nat,
    (occurrences chain s)[j]? = some a →
    (occurrences chain s)[(j + 1) % (occurrences chain s).length]? = some b →
    (chain.getD a default).effectiveRecharge - 1/1000 ≤
      specGap chain (chainLatency chain) a b

/-! ### Bridging lemmas between `buildUsages` and the spec-side occurrence
lists -/

/-- Total lookup into the ordered usage groups (empty when absent). -/
def groupsGet : List (String × List Usage) → String → List Usage
  | [], _ => []
  | (s', us) :: rest, s => if s' = s then us else groupsGet rest s

/-- The usage list of one slug with the running time offset `t` carried
explicitly (matches the `timePos` accumulation of the source loop). -/
def slugUsages : List Power → ℚ → ℚ → String → List Usage
  | [], _, _, _ => []
  | p :: rest, latency, t, s =>
      (if p.slug = s then [⟨t, p.effectiveRecharge⟩] else []) ++
      slugUsages rest latency (t + p.arcanaTime + latency) s

theorem groupsGet_addUsage (g : List (String × List Usage)) (s' s : String)
    (u : Usage) :
    groupsGet (addUsage g s' u) s =
      groupsGet g s ++ (if s' = s then [u] else []) := by
  induction g with
  | nil => by_cases h : s' = s <;> simp [addUsage, groupsGet, h]
  | cons hd tl ih =>
      obtain ⟨a, us⟩ := hd
      by_cases h1 : a = s'
      · subst h1
        by_cases h2 : a = s <;> simp [addUsage, groupsGet, h2]
      · by_cases h2 : a = s
        · subst h2
          have hss : ¬ s' = a := fun h => h1 h.symm
          simp [addUsage, groupsGet, h1, hss]
        · simp [addUsage, groupsGet, h1, h2, ih]

theorem buildUsages_foldl_get (chain : List Power) (latency : ℚ) (s : String) :
    ∀ (g : List (String × List Usage)) (t : ℚ),
      groupsGet
        (chain.foldl
          (fun st p =>
            (addUsage st.1 p.slug ⟨st.2, p.effectiveRecharge⟩,
             st.2 + p.arcanaTime + latency)) (g, t)).1 s =
      groupsGet g s ++ slugUsages chain latency t s := by
  induction chain with
  | nil => intro g t; simp [slugUsages]
  | cons p rest ih =>
      intro g t
      simp only [List.foldl_cons]
      rw [ih, groupsGet_addUsage]
      by_cases h : p.slug = s <;> simp [slugUsages, h]

theorem groupsGet_buildUsages (chain : List Power) (latency : ℚ) (s : String) :
    groupsGet (buildUsages chain latency) s = slugUsages chain latency 0 s := by
  have := buildUsages_foldl_get chain latency s [] 0
  simpa [buildUsages, groupsGet] using this

theorem keys_addUsage (g : List (String × List Usage)) (s : String) (u : Usage) :
    (addUsage g s u).map Prod.fst =
      if s ∈ g.map Prod.fst then g.map Prod.fst
      else g.map Prod.fst ++ [s] := by
  induction g with
  | nil => simp [addUsage]
  | cons hd tl ih =>
      obtain ⟨a, us⟩ := hd
      by_cases h : a = s
      · subst h; simp [addUsage]
      · have hsa : ¬ s = a := fun hh => h hh.symm
        by_cases h2 : s ∈ tl.map Prod.fst <;>
          simp [addUsage, h, ih, h2, hsa]

theorem nodupKeys_addUsage (g : List (String × List Usage)) (s : String)
    (u : Usage) (h : (g.map Prod.fst).Nodup) :
    ((addUsage g s u).map Prod.fst).Nodup := by
  rw [keys_addUsage]
  by_cases hm : s ∈ g.map Prod.fst
  · simpa [hm] using h
  · simp only [hm, if_false]
    rw [List.nodup_append]
    exact ⟨h, List.nodup_singleton s,
      fun x hx hxs => hm (by rwa [List.mem_singleton.mp hxs] at hx)⟩

theorem nodupKeys_buildUsages (chain : List Power) (latency : ℚ) :
    ((buildUsages chain latency).map Prod.fst).Nodup := by
  suffices h : ∀ (g : List (String × List Usage)) (t : ℚ),
      (g.map Prod.fst).Nodup →
      (((chain.foldl
        (fun st p =>
          (addUsage st.1 p.slug ⟨st.2, p.effectiveRecharge⟩,
           st.2 + p.arcanaTime + latency)) (g, t)).1).map Prod.fst).Nodup by
    exact h [] 0 (by simp)
  induction chain with
  | nil => intro g t hg; simpa using hg
  | cons p rest ih =>
      intro g t hg
      simp only [List.foldl_cons]
      exact ih _ _ (nodupKeys_addUsage g p.slug _ hg)

theorem groupsGet_of_mem (g : List (String × List Usage))
    (h : (g.map Prod.fst).Nodup) (s : String) (us : List Usage)
    (hm : (s, us) ∈ g) : groupsGet g s = us := by
  induction g with
  | nil => simp at hm
  | cons hd tl ih =>
      obtain ⟨a, bs⟩ := hd
      have h' : (a :: tl.map Prod.fst).Nodup := by
        rw [List.map_cons] at h; exact h
      have hnd := List.nodup_cons.mp h'
      rcases List.mem_cons.mp hm with heq | htl
      · injection heq with h1 h2
        subst h1; subst h2
        simp [groupsGet]
      · have ha : a ≠ s := by
          intro hh
          subst hh
          exact hnd.1 (List.mem_map.mpr ⟨(a, us), htl, rfl⟩)
        simpa [groupsGet, ha] using ih hnd.2 htl

theorem mem_of_groupsGet_ne (g : List (String × List Usage)) (s : String)
    (h : groupsGet g s ≠ []) : (s, groupsGet g s) ∈ g := by
  induction g with
  | nil => simp [groupsGet] at h
  | cons hd tl ih =>
      obtain ⟨a, bs⟩ := hd
      by_cases ha : a = s
      · subst ha; simp [groupsGet]
      · have h' : groupsGet tl s ≠ [] := by simpa [groupsGet, ha] using h
        simpa [groupsGet, ha] using Or.inr (ih h')

theorem offsetAt_zero (chain : List Power) (latency : ℚ) :
    offsetAt chain latency 0 = 0 := by
  simp [offsetAt]

theorem offsetAt_cons_succ (p : Power) (rest : List Power) (latency : ℚ)
    (i : Nat) :
    offsetAt (p :: rest) latency (i + 1) =
      p.arcanaTime + latency + offsetAt rest latency i := by
  simp [offsetAt, List.take_succ_cons]

theorem slugUsages_eq_map (chain : List Power) (latency : ℚ) (s : String) :
    ∀ t : ℚ, slugUsages chain latency t s =
      (occurrences chain s).map fun i =>
        Usage.mk (t + offsetAt chain latency i)
          (chain.getD i default).effectiveRecharge := by
  induction chain with
  | nil => intro t; simp [slugUsages, occurrences]
  | cons p rest ih =>
      intro t
      rw [show occurrences (p :: rest) s =
            (if p.slug = s then [0] else []) ++
              (occurrences rest s).map (· + 1) from rfl]
      rw [show slugUsages (p :: rest) latency t s =
            (if p.slug = s then [⟨t, p.effectiveRecharge⟩] else []) ++
              slugUsages rest latency (t + p.arcanaTime + latency) s from rfl]
      rw [List.map_append, List.map_map, ih]
      congr 1
      · by_cases h : p.slug = s <;> simp [h, offsetAt_zero]
      · refine List.map_congr_left fun i _ => ?_
        simp only [Function.comp, offsetAt_cons_succ, List.getD_cons_succ,
          Usage.mk.injEq]
        exact ⟨by ring, trivial⟩

theorem occurrences_sorted (chain : List Power) (s : String) :
    (occurrences chain s).Pairwise (· < ·) := by
  induction chain with
  | nil => simp [occurrences]
  | cons p rest ih =>
      have hmap : ((occurrences rest s).map (· + 1)).Pairwise (· < ·) :=
        List.Pairwise.map _ (fun a b h => by omega) ih
      by_cases h : p.slug = s
      · simp only [occurrences, h, if_true, List.singleton_append,
          List.pairwise_cons]
        exact ⟨fun b hb => by
          obtain ⟨i, _, rfl⟩ := List.mem_map.mp hb; omega, hmap⟩
      · simpa [occurrences, h] using hmap

theorem chainTotalTime_foldl (chain : List Power) (latency : ℚ) :
    ∀ a : ℚ, chain.foldl (fun sum p => sum + p.arcanaTime + latency) a =
      a + cycleLen chain latency := by
  induction chain with
  | nil => intro a; simp [cycleLen]
  | cons p rest ih =>
      intro a
      simp only [List.foldl_cons, ih, cycleLen, List.map_cons, List.sum_cons]
      ring

theorem chainTotalTime_eq_cycleLen (chain : List Power) (latency : ℚ) :
    chainTotalTime chain latency = cycleLen chain latency := by
  have := chainTotalTime_foldl chain latency 0
  simpa [chainTotalTime] using this

/-- The source's occurrence-index wrap test `(i+1) % len > i` agrees with
the chain-position comparison `a < b` for entries of the sorted
occurrence list. -/
theorem wrap_gt_iff (occ : List Nat) (pw : occ.Pairwise (· < ·)) (j a b : Nat)
    (hja : occ[j]? = some a) (hjb : occ[(j + 1) % occ.length]? = some b) :
    ((j + 1) % occ.length > j ↔ a < b) := by
  obtain ⟨hj, hget⟩ := List.getElem?_eq_some_iff.mp hja
  by_cases hlt : j + 1 < occ.length
  · have hmod : (j + 1) % occ.length = j + 1 := Nat.mod_eq_of_lt hlt
    rw [hmod] at hjb ⊢
    obtain ⟨hj1, hget1⟩ := List.getElem?_eq_some_iff.mp hjb
    have hab : a < b := by
      have := List.pairwise_iff_get.mp pw ⟨j, hj⟩ ⟨j + 1, hj1⟩ (by simp)
      simpa [List.get_eq_getElem, hget, hget1] using this
    simp [hab]
  · have hj1 : j + 1 = occ.length := by omega
    have hmod : (j + 1) % occ.length = 0 := by
      rw [hj1]; exact Nat.mod_self _
    rw [hmod] at hjb ⊢
    obtain ⟨h0, hget0⟩ := List.getElem?_eq_some_iff.mp hjb
    have hnab : ¬ a < b := by
      rcases Nat.eq_zero_or_pos j with hj0 | hj0
      · subst hj0
        rw [hget] at hget0
        omega
      · have := List.pairwise_iff_get.mp pw ⟨0, h0⟩ ⟨j, hj⟩ (by simpa using hj0)
        simp only [List.get_eq_getElem, hget, hget0] at this
        omega
    simp [hnab]

/-- The gap check performed by the source on the usage list of slug `s`
agrees with the spec-side inequality on chain positions. -/
theorem usageGapOk_bridge (chain : List Power) (s : String) (j a b : Nat)
    (hja : (occurrences chain s)[j]? = some a)
    (hjb : (occurrences chain s)[(j + 1) % (occurrences chain s).length]? =
      some b) :
    (usageGapOk (chainTotalTime chain (chainLatency chain))
        (slugUsages chain (chainLatency chain) 0 s) j = true) ↔
    ((chain.getD a default).effectiveRecharge - 1/1000 ≤
        specGap chain (chainLatency chain) a b) := by
  have hmap := slugUsages_eq_map chain (chainLatency chain) s 0
  have hiff := wrap_gt_iff (occurrences chain s) (occurrences_sorted chain s)
    j a b hja hjb
  have hT := chainTotalTime_eq_cycleLen chain (chainLatency chain)
  by_cases hw : (j + 1) % (occurrences chain s).length > j
  · have hab : a < b := hiff.mp hw
    simp only [usageGapOk, hmap, List.length_map, List.getElem?_map, hja, hjb,
      Option.map_some', hw, if_true, specGap, hab, zero_add]
    by_cases hc : offsetAt chain (chainLatency chain) b -
        offsetAt chain (chainLatency chain) a <
        (chain.getD a default).effectiveRecharge - 1/1000
    · rw [if_pos hc]
      exact iff_of_false (by simp) (not_le.mpr hc)
    · rw [if_neg hc]
      exact iff_of_true rfl (not_lt.mp hc)
  · have hab : ¬ a < b := fun hh => hw (hiff.mpr hh)
    simp only [usageGapOk, hmap, List.length_map, List.getElem?_map, hja, hjb,
      Option.map_some', hw, if_false, specGap, hab, zero_add, hT]
    by_cases hc : cycleLen chain (chainLatency chain) -
        offsetAt chain (chainLatency chain) a +
        offsetAt chain (chainLatency chain) b <
        (chain.getD a default).effectiveRecharge - 1/1000
    · rw [if_pos (by linarith)]
      exact iff_of_false (by simp) (not_le.mpr hc)
    · rw [if_neg (by intro hh; exact hc (by linarith))]
      exact iff_of_true rfl (not_lt.mp hc)

/-- Example powers for the concrete instances of claim C2: `duration`
(quantized) 1, zero latency; `feasA r` has effective recharge `r` and
`feasB` has effective recharge 2. -/
def feasA (r : ℚ) : Power :=
  { slug := "a", name := "A", totalDamage := 10, castTime := 1,
    arcanaTime := 1, rechargeTime := r, enhRecharge := 0,
    effectiveRecharge := r, activationLatency := 0, enduranceCost := 1,
    dpa := 10, effectArea := "SingleTarget", defiance := none,
    buffs := [], isMelee := false }

def feasB : Power :=
  { feasA 2 with slug := "b", name := "B" }

/-- C2: Strict feasibility.  `isChainFeasible chain = true` iff for every
action identifier and every cyclically consecutive pair of its
occurrences (offsets being cumulative sums of duration+latency, the last
occurrence wrapping to the first plus the full cycle length), the gap is
at least that occurrence's `effectiveRecharge` minus the tolerance
`1e-3`; in particular `[A, B]` with durations 1, zero latency and
effective recharges 2, 2 is strictly feasible, and raising A's effective
recharge to 2.5 makes it infeasible. -/
theorem isChainFeasible_correct :
    (∀ chain : List Power, isChainFeasible chain = true ↔ FeasibleSpec chain) ∧
    isChainFeasible [feasA 2, feasB] = true ∧
    isChainFeasible [feasA (5/2), feasB] = false := by
  refine ⟨fun chain => ?_, ?_, ?_⟩
  · constructor
    · intro h s j a b hja hjb
      have hmap := slugUsages_eq_map chain (chainLatency chain) s 0
      have hne : slugUsages chain (chainLatency chain) 0 s ≠ [] := by
        rw [hmap]
        intro hnil
        rcases List.map_eq_nil_iff.mp hnil with hocc
        rw [hocc] at hja
        simp at hja
      have hmem : (s, slugUsages chain (chainLatency chain) 0 s) ∈
          buildUsages chain (chainLatency chain) := by
        have hmem' := mem_of_groupsGet_ne (buildUsages chain (chainLatency chain)) s
          (by rw [groupsGet_buildUsages]; exact hne)
        rwa [groupsGet_buildUsages] at hmem'
      simp only [isChainFeasible, List.all_eq_true] at h
      have hj : j < (occurrences chain s).length :=
        (List.getElem?_eq_some_iff.mp hja).1
      have hj' : j < (slugUsages chain (chainLatency chain) 0 s).length := by
        rw [hmap]; simpa using hj
      have hok := h _ hmem j (List.mem_range.mpr hj')
      exact (usageGapOk_bridge chain s j a b hja hjb).mp hok
    · intro hs
      simp only [isChainFeasible, List.all_eq_true]
      rintro ⟨s, us⟩ hg i hi
      have hus : us = slugUsages chain (chainLatency chain) 0 s := by
        have hh := groupsGet_of_mem _ (nodupKeys_buildUsages chain (chainLatency chain))
          s us hg
        rw [groupsGet_buildUsages] at hh
        exact hh.symm
      subst hus
      rw [List.mem_range] at hi
      have hmap := slugUsages_eq_map chain (chainLatency chain) s 0
      have hi' : i < (occurrences chain s).length := by
        rw [hmap] at hi; simpa using hi
      have hmod : (i + 1) % (occurrences chain s).length <
          (occurrences chain s).length :=
        Nat.mod_lt _ (by omega)
      have hja := List.getElem?_eq_getElem hi'
      have hjb := List.getElem?_eq_getElem hmod
      exact (usageGapOk_bridge chain s i _ _ hja hjb).mpr (hs s i _ _ hja hjb)
  · norm_num [isChainFeasible, chainLatency, chainTotalTime, buildUsages,
      addUsage, usageGapOk, feasA, feasB, List.all]
  · norm_num [isChainFeasible, chainLatency, chainTotalTime, buildUsages,
      addUsage, usageGapOk, feasA, feasB, List.all]

/-- Witness for C2: the equivalence instantiated at the concrete feasible
chain, turning its boolean check into the spec-side property. -/
theorem isChainFeasible_correct_w : FeasibleSpec [feasA 2, feasB] :=
  (isChainFeasible_correct.1 [feasA 2, feasB]).mp isChainFeasible_correct.2.1

/-! ## Steady-state chain simulator (`simulateChainWithDefiance`,
worker lines 619-708)

The JS cooldown object (`cooldowns[slug] || 0`, assignment overwrites)
is modelled as a prepend-shadowing association list read by `cdLookup`.
`activeBuffs` is a JS array: `push` appends at the end, `filter` keeps
order.  Division on `ℚ` is total with `x / 0 = 0`, whereas JS produces
`NaN`/`Infinity` on a zero denominator; every theorem that touches a
quotient therefore tracks the positivity of the denominator explicitly.
-/

structure ActiveBuff where
  slug : String
  scale : ℚ
  expiresAt : ℚ
  stacking : String
  deriving Repr, DecidableEq

structure SimState where
  activeBuffs : List ActiveBuff
  cooldowns : List (String × ℚ)
  currentTime : ℚ
  deriving Repr, DecidableEq

def cdLookup (cds : List (String × ℚ)) (slug : String) : ℚ :=
  match cds with
  | [] => 0
  | (s, v) :: rest => if s = slug then v else cdLookup rest slug

/-- What one loop iteration observes and records (the source only copies
these into the measurement arrays on the final cycle). -/
structure StepRecord where
  slug : String
  name : String
  waitBefore : ℚ
  tAfterWait : ℚ
  arcanaTime : ℚ
  damage : ℚ
  defianceMult : ℚ
  deriving Repr, DecidableEq

/-- The body of the inner `for (let i = 0; i < chain.length; i++)` loop:
cooldown wait, buff expiry, multiplier, damage, self-buff application,
cooldown update, time advance. -/
def runPower (st : SimState) (power : Power) : SimState × StepRecord :=
  let readyAt := cdLookup st.cooldowns power.slug
  let waitBefore := if readyAt > st.currentTime then readyAt - st.currentTime else 0
  let t1 := if readyAt > st.currentTime then readyAt else st.currentTime
  let buffs1 := st.activeBuffs.filter fun b =>
    if b.expiresAt > t1 then true else false
  let defianceBonus := buffs1.foldl (fun sum b => sum + b.scale) 0
  let defianceMult := 1 + defianceBonus
  let effectiveDamage := power.totalDamage * defianceMult
  let buffs2 :=
    match power.defiance with
    | some dfn =>
        if dfn.scale > 0 then
          let newBuff : ActiveBuff :=
            ⟨power.slug, dfn.scale, t1 + dfn.duration, dfn.stacking⟩
          if dfn.stacking = "Replace" then
            (buffs1.filter fun b =>
              if b.slug = power.slug then false else true) ++ [newBuff]
          else buffs1 ++ [newBuff]
        else buffs1
    | none => buffs1
  (⟨buffs2, (power.slug, t1 + power.effectiveRecharge) :: st.cooldowns,
    t1 + power.arcanaTime + power.activationLatency⟩,
   ⟨power.slug, power.name, waitBefore, t1, power.arcanaTime,
    effectiveDamage, defianceMult⟩)

/-- One full pass over the chain. -/
def runCycle (st : SimState) (chain : List Power) :
    SimState × List StepRecord :=
  match chain with
  | [] => (st, [])
  | p :: rest =>
      let r1 := runPower st p
      let r2 := runCycle r1.1 rest
      (r2.1, r1.2 :: r2.2)

/-- `n` passes over the chain, keeping every pass's records. -/
def runCycles (st : SimState) (chain : List Power) :
    Nat → SimState × List (List StepRecord)
  | 0 => (st, [])
  | n + 1 =>
      let r1 := runCycle st chain
      let r2 := runCycles r1.1 chain n
      (r2.1, r1.2 :: r2.2)

structure SimEvent where
  slug : String
  name : String
  startTime : ℚ
  endTime : ℚ
  waitBefore : ℚ
  damage : ℚ
  defianceMult : ℚ
  deriving Repr, DecidableEq

structure SimResult where
  totalDamage : ℚ
  totalTime : ℚ
  dps : ℚ
  perPowerDamage : List ℚ
  perPowerDefianceMult : List ℚ
  avgDefianceMult : ℚ
  events : List SimEvent
  deriving Repr, DecidableEq

def initState : SimState := ⟨[], [], 0⟩

/-- The simulator with an explicit warm-up pass count: `warmup` passes
whose records are discarded, then one measurement pass.  The source runs
`totalCycles = DEFIANCE_WARMUP_CYCLES + 1` iterations of the same loop
and resets the measurement arrays on the final one, which is equivalent. -/
def simulateWarmup (warmup : Nat) (chain : List Power) : SimResult :=
  let stW := (runCycles initState chain warmup).1
  let measureStartTime := stW.currentTime
  let fin := runCycle stW chain
  let recs := fin.2
  let measureDamage := recs.map (·.damage)
  let measureDefianceMult := recs.map (·.defianceMult)
  let totalDamage := measureDamage.foldl (· + ·) 0
  let totalTime := fin.1.currentTime - measureStartTime
  { totalDamage := totalDamage,
    totalTime := totalTime,
    dps := totalDamage / totalTime,
    perPowerDamage := measureDamage,
    perPowerDefianceMult := measureDefianceMult,
    avgDefianceMult :=
      (measureDefianceMult.foldl (· + ·) 0) / (measureDefianceMult.length : ℚ),
    events := recs.map fun r =>
      ⟨r.slug, r.name, r.tAfterWait - measureStartTime,
       r.tAfterWait - measureStartTime + r.arcanaTime, r.waitBefore,
       r.damage, r.defianceMult⟩ }

def simulateChainWithDefiance (chain : List Power) : SimResult :=
  simulateWarmup DEFIANCE_WARMUP_CYCLES chain

/-! ## Claim C1: steady-state convergence of the single-action Stack
chain

`stackPower d r f dmg` is a power with quantized duration `d`, effective
recharge `r`, zero latency, a Stack-mode self-buff of fraction `f` and
bonus duration exactly `3 * d`, and base damage `dmg`. -/

def stackPower (d r f dmg : ℚ) : Power :=
  { slug := "a", name := "A", totalDamage := dmg, castTime := d,
    arcanaTime := d, rechargeTime := r, enhRecharge := 0,
    effectiveRecharge := r, activationLatency := 0, enduranceCost := 1,
    dpa := dmg, effectArea := "SingleTarget",
    defiance := some ⟨f, 3 * d, "Stack"⟩, buffs := [], isMelee := false }

/-- Counterexample to C1: with `d = 1`, `r = 1` (strictly feasible,
`effectiveRecharge ≤ duration`), fraction `0.1` and bonus duration
exactly `3 × d`, the multiplier recorded on the measurement pass is
`1.2`, not the claimed `1.3`: the instance applied on warm-up pass 0
expires exactly at the measurement activation time and `expiry ≤ t` is
expired before the multiplier is computed. -/
theorem stack_convergence_cex :
    isChainFeasible [stackPower 1 1 (1/10) 10] = true ∧
    (simulateChainWithDefiance
        [stackPower 1 1 (1/10) 10]).perPowerDefianceMult = [6/5] ∧
    ((6 : ℚ)/5 ≠ 13/10) := by
  refine ⟨?_, ?_, by norm_num⟩
  · norm_num [isChainFeasible, chainLatency, chainTotalTime, buildUsages,
      addUsage, usageGapOk, stackPower, List.all]
  · have hs : ("Stack" : String) ≠ "Replace" := by decide
    norm_num [simulateChainWithDefiance, simulateWarmup,
      DEFIANCE_WARMUP_CYCLES, runCycles, runCycle, runPower, cdLookup,
      initState, stackPower, hs]

/-- C1 (amended): for a single-action sequence `[A]` with zero latency,
`A.effectiveRecharge ≤ A.duration` (strictly feasible, no induced wait),
a Stack-mode self-buff of fraction `f > 0` and bonus duration exactly
`3 × A.duration`, the simulator runs 3 warm-up passes plus one
measurement pass, and because buff instances with `expiry ≤ t` are
expired before the multiplier is computed, the instance stacked on the
first warm-up pass has expired exactly at the measurement activation:
the measured multiplier is `1 + 2f` (for `f = 0.1`: `1.2`, not `1.3`),
and the realized damage is `dmg * (1 + 2f)`. -/
theorem stack_convergence_amended (d r f dmg : ℚ) (hd : 0 < d)
    (hr : r ≤ d) (hf : 0 < f) :
    (simulateChainWithDefiance [stackPower d r f dmg]).perPowerDefianceMult
      = [1 + 2 * f] ∧
    (simulateChainWithDefiance [stackPower d r f dmg]).avgDefianceMult
      = 1 + 2 * f ∧
    (simulateChainWithDefiance [stackPower d r f dmg]).perPowerDamage
      = [dmg * (1 + 2 * f)] := by
  have hs : ("Stack" : String) ≠ "Replace" := by decide
  have hw : ¬ (d < r) := not_lt.mpr hr
  have hw2 : ¬ (d + d < d + r) := by linarith
  have hw3 : ¬ (d + d + d < d + d + r) := by linarith
  have ha1 : d < 3 * d := by linarith
  have ha2 : d + d < 3 * d := by linarith
  have ha3 : d + d < d + 3 * d := by linarith
  have ha4 : ¬ (d + d + d < 3 * d) := by linarith
  have ha5 : d + d + d < d + 3 * d := by linarith
  have ha6 : d + d + d < d + d + 3 * d := by linarith
  norm_num [simulateChainWithDefiance, simulateWarmup, DEFIANCE_WARMUP_CYCLES,
    runCycles, runCycle, runPower, cdLookup, initState, stackPower, hs, hf,
    hw, hw2, hw3, ha1, ha2, ha3, ha4, ha5, ha6]
  exact ⟨by ring, Or.inl (by ring)⟩

/-- Witness for C1 (amended) at `d = 1, r = 1, f = 0.1, dmg = 10`. -/
theorem stack_convergence_amended_w :
    (simulateChainWithDefiance [stackPower 1 1 (1/10) 10]).avgDefianceMult
      = 1 + 2 * (1/10) :=
  (stack_convergence_amended 1 1 (1/10) 10 (by norm_num) (by norm_num)
    (by norm_num)).2.1

/-! ## Claim C4: no-wait elapsed time -/

/-- Sum of `duration + latency` over the chain entries (the simulator
reads each power's own `activationLatency` field). -/
def chainCastSum (chain : List Power) : ℚ :=
  (chain.map fun p => p.arcanaTime + p.activationLatency).sum

/-- `true` iff no loop iteration of the first `cycles` passes waited on a
cooldown. -/
def noWaitRun (cycles : Nat) (chain : List Power) : Bool :=
  ((runCycles initState chain cycles).2.flatten).all fun rec =>
    if rec.waitBefore = 0 then true else false

theorem runPower_time (st : SimState) (p : Power) :
    (runPower st p).1.currentTime =
      st.currentTime + (runPower st p).2.waitBefore +
        p.arcanaTime + p.activationLatency := by
  by_cases h : cdLookup st.cooldowns p.slug > st.currentTime <;>
    simp [runPower, h] <;> ring

theorem runPower_wait_nonneg (st : SimState) (p : Power) :
    0 ≤ (runPower st p).2.waitBefore := by
  by_cases h : cdLookup st.cooldowns p.slug > st.currentTime <;>
    simp [runPower, h]
  linarith

theorem runCycle_time (chain : List Power) : ∀ st : SimState,
    (runCycle st chain).1.currentTime =
      st.currentTime + ((runCycle st chain).2.map (·.waitBefore)).sum +
        chainCastSum chain := by
  induction chain with
  | nil => intro st; simp [runCycle, chainCastSum]
  | cons p rest ih =>
      intro st
      simp only [runCycle, List.map_cons, List.sum_cons, chainCastSum,
        List.map_cons, List.sum_cons]
      rw [ih (runPower st p).1, runPower_time]
      simp only [chainCastSum]
      ring

theorem runCycles_succ_back (st : SimState) (chain : List Power) :
    ∀ n : Nat, runCycles st chain (n + 1) =
      ((runCycle (runCycles st chain n).1 chain).1,
       (runCycles st chain n).2 ++ [(runCycle (runCycles st chain n).1 chain).2]) := by
  intro n
  induction n generalizing st with
  | zero => simp [runCycles]
  | succ m ih =>
      show runCycles st chain (m + 1 + 1) = _
      rw [show runCycles st chain (m + 1 + 1) =
        ((runCycles (runCycle st chain).1 chain (m + 1)).1,
         (runCycle st chain).2 :: (runCycles (runCycle st chain).1 chain (m + 1)).2)
        from rfl]
      rw [ih (runCycle st chain).1]
      simp [runCycles]

/-- C4: For every strictly feasible sequence on which the simulator
induces no cooldown wait during any pass, the measurement pass's elapsed
time equals the unweighted sum of `duration + latency` over the
sequence's entries, independent of the number of warm-up passes; in
particular this holds for the fixed 3-warm-up simulator
`simulateChainWithDefiance`. -/
theorem noWait_measure_time (chain : List Power)
    (hfeas : isChainFeasible chain = true) :
    (∀ W : Nat, noWaitRun (W + 1) chain = true →
      (simulateWarmup W chain).totalTime = chainCastSum chain) ∧
    (noWaitRun (3 + 1) chain = true →
      (simulateChainWithDefiance chain).totalTime = chainCastSum chain) := by
  have main : ∀ W : Nat, noWaitRun (W + 1) chain = true →
      (simulateWarmup W chain).totalTime = chainCastSum chain := by
    intro W hnw
    simp only [noWaitRun, List.all_eq_true] at hnw
    have hmem : ∀ rec ∈ (runCycle (runCycles initState chain W).1 chain).2,
        rec.waitBefore = 0 := by
      intro rec hrec
      have hjoin : rec ∈ (runCycles initState chain (W + 1)).2.flatten := by
        rw [runCycles_succ_back]
        simp only [List.flatten_append]
        exact List.mem_append.mpr (Or.inr (by simpa using hrec))
      have := hnw rec hjoin
      by_contra hne
      simp [hne] at this
    simp only [simulateWarmup, SimResult.mk.injEq]
    rw [runCycle_time]
    have hzero :
        (((runCycle (runCycles initState chain W).1 chain).2.map
          (·.waitBefore)).sum : ℚ) = 0 := by
      apply List.sum_eq_zero
      intro x hx
      obtain ⟨rec, hrec, rfl⟩ := List.mem_map.mp hx
      exact hmem rec hrec
    rw [hzero]
    ring
  exact ⟨main, main 3⟩

/-- Witness for C4 at the feasible chain `[feasA 2, feasB]` (all waits
are zero for 4 and for 6 passes; elapsed time is `1 + 1 = 2`). -/
theorem noWait_measure_time_w :
    (simulateWarmup 5 [feasA 2, feasB]).totalTime =
      chainCastSum [feasA 2, feasB] ∧
    (simulateChainWithDefiance [feasA 2, feasB]).totalTime =
      chainCastSum [feasA 2, feasB] := by
  have hfeas : isChainFeasible [feasA 2, feasB] = true := by
    norm_num [isChainFeasible, chainLatency, chainTotalTime, buildUsages,
      addUsage, usageGapOk, feasA, feasB, List.all]
  have h := noWait_measure_time [feasA 2, feasB] hfeas
  have hab : ("a" : String) ≠ "b" := by decide
  have hba : ("b" : String) ≠ "a" := by decide
  constructor
  · refine h.1 5 ?_
    norm_num [noWaitRun, runCycles, runCycle, runPower, cdLookup, initState,
      feasA, feasB, hab, hba, List.all]
  · refine h.2 ?_
    norm_num [noWaitRun, runCycles, runCycle, runPower, cdLookup, initState,
      feasA, feasB, hab, hba, List.all]

end CohDps

namespace CohDps

/-! ## Claim C10: multiplier lower bound -/

/-- Invariant: every active buff instance carries a strictly positive
bonus fraction (the source only pushes a buff under the guard
`power.defiance.scale > 0`). -/
def BuffsPos (st : SimState) : Prop :=
  ∀ b ∈ st.activeBuffs, 0 < b.scale

theorem foldl_scale_ge (l : List ActiveBuff) (h : ∀ b ∈ l, 0 ≤ b.scale) :
    ∀ init : ℚ, init ≤ l.foldl (fun sum b => sum + b.scale) init := by
  induction l with
  | nil => intro init; simp
  | cons b rest ih =>
      intro init
      have hb : 0 ≤ b.scale := h b (List.mem_cons_self b rest)
      have := ih (fun x hx => h x (List.mem_cons_of_mem b hx)) (init + b.scale)
      simp only [List.foldl_cons]
      linarith

theorem runPower_buffsPos (st : SimState) (p : Power) (h : BuffsPos st) :
    BuffsPos (runPower st p).1 := by
  intro b hb
  rcases hdef : p.defiance with _ | dfn
  · simp only [runPower, hdef] at hb
    exact h b (List.mem_filter.mp hb).1
  · by_cases hs : dfn.scale > 0
    · by_cases hrep : dfn.stacking = "Replace" <;>
        simp only [runPower, hdef, hs, if_true, hrep, if_false,
          List.mem_append, List.mem_singleton, if_pos, if_neg] at hb
      · rcases hb with hb | hb
        · exact h b (List.mem_filter.mp (List.mem_filter.mp hb).1).1
        · subst hb; exact hs
      · rcases hb with hb | hb
        · exact h b (List.mem_filter.mp hb).1
        · subst hb; exact hs
    · simp only [runPower, hdef, hs, if_false] at hb
      exact h b (List.mem_filter.mp hb).1

theorem runPower_mult_ge_one (st : SimState) (p : Power) (h : BuffsPos st) :
    1 ≤ (runPower st p).2.defianceMult := by
  have hfil : ∀ b ∈ st.activeBuffs.filter fun b =>
      if b.expiresAt > (if cdLookup st.cooldowns p.slug > st.currentTime
        then cdLookup st.cooldowns p.slug else st.currentTime)
      then true else false, 0 ≤ b.scale :=
    fun b hb => le_of_lt (h b (List.mem_filter.mp hb).1)
  have := foldl_scale_ge _ hfil 0
  simp only [runPower]
  linarith

theorem runPower_damage_eq (st : SimState) (p : Power) :
    (runPower st p).2.damage =
      p.totalDamage * (runPower st p).2.defianceMult := rfl

theorem runCycle_buffsPos (chain : List Power) : ∀ st : SimState,
    BuffsPos st → BuffsPos (runCycle st chain).1 := by
  induction chain with
  | nil => intro st h; simpa [runCycle] using h
  | cons p rest ih =>
      intro st h
      exact ih (runPower st p).1 (runPower_buffsPos st p h)

theorem runCycles_buffsPos (chain : List Power) (n : Nat) : ∀ st : SimState,
    BuffsPos st → BuffsPos (runCycles st chain n).1 := by
  induction n with
  | zero => intro st h; simpa [runCycles] using h
  | succ m ih =>
      intro st h
      exact ih (runCycle st chain).1 (runCycle_buffsPos chain st h)

theorem runCycle_mult_ge (chain : List Power) : ∀ st : SimState,
    BuffsPos st → ∀ rec ∈ (runCycle st chain).2, 1 ≤ rec.defianceMult := by
  induction chain with
  | nil => intro st _ rec hrec; simp [runCycle] at hrec
  | cons p rest ih =>
      intro st h rec hrec
      rcases List.mem_cons.mp hrec with hrec | hrec
      · subst hrec; exact runPower_mult_ge_one st p h
      · exact ih (runPower st p).1 (runPower_buffsPos st p h) rec hrec

theorem runCycle_damage_ge (chain : List Power) : ∀ st : SimState,
    BuffsPos st → (∀ p ∈ chain, 0 ≤ p.totalDamage) →
    List.Forall₂ (fun (rec : StepRecord) (p : Power) =>
      p.totalDamage ≤ rec.damage) (runCycle st chain).2 chain := by
  induction chain with
  | nil => intro st _ _; simp [runCycle]
  | cons p rest ih =>
      intro st h hdmg
      refine List.Forall₂.cons ?_
        (ih (runPower st p).1 (runPower_buffsPos st p h)
          (fun q hq => hdmg q (List.mem_cons_of_mem p hq)))
      rw [runPower_damage_eq]
      exact le_mul_of_one_le_right (hdmg p (List.mem_cons_self p rest))
        (runPower_mult_ge_one st p h)

theorem runCycle_length (chain : List Power) : ∀ st : SimState,
    (runCycle st chain).2.length = chain.length := by
  induction chain with
  | nil => intro st; simp [runCycle]
  | cons p rest ih => intro st; simp [runCycle, ih]

theorem foldl_add_eq_sum (l : List ℚ) : ∀ init : ℚ,
    l.foldl (· + ·) init = init + l.sum := by
  induction l with
  | nil => intro init; simp
  | cons x rest ih =>
      intro init
      simp only [List.foldl_cons, List.sum_cons, ih]
      ring

theorem length_le_sum_of_one_le (l : List ℚ) (h : ∀ x ∈ l, 1 ≤ x) :
    (l.length : ℚ) ≤ l.sum := by
  induction l with
  | nil => simp
  | cons x rest ih =>
      have h1 : 1 ≤ x := h x (List.mem_cons_self x rest)
      have h2 := ih fun y hy => h y (List.mem_cons_of_mem x hy)
      simp only [List.length_cons, List.sum_cons]
      push_cast
      linarith

/-- C10: In every run of the steady-state simulator, only buff instances
with bonus fraction > 0 are ever added to the active-buff set, so every
per-action multiplier recorded on the measurement pass is ≥ 1, every
recorded per-action realized damage is ≥ that action's base damage
(bases being nonnegative per the data-model invariant `baseValue ≥ 0`),
and the reported average multiplier is ≥ 1. -/
theorem defiance_mult_lower_bound (chain : List Power) (hne : chain ≠ [])
    (hdmg : ∀ p ∈ chain, 0 ≤ p.totalDamage) :
    (∀ m ∈ (simulateChainWithDefiance chain).perPowerDefianceMult, 1 ≤ m) ∧
    List.Forall₂ (fun dmg p => p.totalDamage ≤ dmg)
      (simulateChainWithDefiance chain).perPowerDamage chain ∧
    1 ≤ (simulateChainWithDefiance chain).avgDefianceMult := by
  have hpos0 : BuffsPos initState := by intro b hb; simp [initState] at hb
  have hposW : BuffsPos (runCycles initState chain DEFIANCE_WARMUP_CYCLES).1 :=
    runCycles_buffsPos chain DEFIANCE_WARMUP_CYCLES initState hpos0
  set stW := (runCycles initState chain DEFIANCE_WARMUP_CYCLES).1 with hstW
  have hmult := runCycle_mult_ge chain stW hposW
  have hdam := runCycle_damage_ge chain stW hposW hdmg
  have hlen := runCycle_length chain stW
  have hres : simulateChainWithDefiance chain = simulateWarmup DEFIANCE_WARMUP_CYCLES chain := rfl
  refine ⟨?_, ?_, ?_⟩
  · intro m hm
    simp only [hres, simulateWarmup, ← hstW] at hm
    obtain ⟨rec, hrec, rfl⟩ := List.mem_map.mp hm
    exact hmult rec hrec
  · simp only [hres, simulateWarmup, ← hstW]
    exact List.forall₂_map_left_iff.mpr hdam
  · simp only [hres, simulateWarmup, ← hstW]
    set recs := (runCycle stW chain).2 with hrecs
    have hall : ∀ x ∈ recs.map (·.defianceMult), 1 ≤ x := by
      intro x hx
      obtain ⟨rec, hrec, rfl⟩ := List.mem_map.mp hx
      exact hmult rec hrec
    have hsum := length_le_sum_of_one_le _ hall
    have hlen' : (recs.map (·.defianceMult)).length = chain.length := by
      simpa using hlen
    have hn : 0 < (chain.length : ℚ) := by
      have : 0 < chain.length := List.length_pos.mpr hne
      exact_mod_cast this
    rw [foldl_add_eq_sum, zero_add, hlen']
    rw [one_le_div hn]
    rw [hlen'] at hsum
    exact hsum

/-- Witness for C10 at the two-power feasible chain (both multipliers,
damages and the average are evaluated on a nonempty chain with
nonnegative base damages). -/
theorem defiance_mult_lower_bound_w :
    1 ≤ (simulateChainWithDefiance [feasA 2, feasB]).avgDefianceMult :=
  (defiance_mult_lower_bound [feasA 2, feasB] (by simp)
    (by
      intro p hp
      rcases List.mem_cons.mp hp with rfl | hp
      · norm_num [feasA]
      · rcases List.mem_cons.mp hp with rfl | hp
        · norm_num [feasB, feasA]
        · simp at hp)).2.2

end CohDps

namespace CohDps

/-! ## Chain results and display rotation (`rotateChainToHighestDpa`,
worker lines 946-970)

`ChainPower` is the per-power entry object built by `searchChains`
(lines 584-598); `ChainResult` is the result record (lines 583-606) with
the overlay fields (`buffedDps`, ...) that `optimizeChains` assigns
afterwards modelled as `Option`s that start out `none`. -/

structure ChainPower where
  slug : String
  name : String
  damage : ℚ
  baseDamage : ℚ
  arcanaTime : ℚ
  castTime : ℚ
  rechargeTime : ℚ
  effectiveRecharge : ℚ
  enduranceCost : ℚ
  dpa : ℚ
  effectArea : String
  defianceBuff : ℚ
  defiance : Option DefianceBuff
  deriving Repr, DecidableEq

instance : Inhabited ChainPower :=
  ⟨⟨"", "", 0, 0, 0, 0, 0, 0, 0, 0, "", 0, none⟩⟩

structure ChainResult where
  powers : List ChainPower
  totalDamage : ℚ
  totalTime : ℚ
  dps : ℚ
  eps : ℚ
  length : Nat
  avgDefianceBuff : ℚ
  timeline : List SimEvent
  buffedDps : Option ℚ := none
  buffUptime : Option ℚ := none
  avgBuffMult : Option ℚ := none
  buffPowerNames : Option (List String) := none
  deriving Repr, DecidableEq

/-- The `for (let i = 1; ...)` argmax scan: strictly greater dpa moves
the best index, so the first maximum wins. -/
def bestDpaIdxAux : List ChainPower → ℚ → Nat → Nat → Nat
  | [], _, _, bestIdx => bestIdx
  | p :: rest, bestDpa, i, bestIdx =>
      if p.dpa > bestDpa then bestDpaIdxAux rest p.dpa (i + 1) i
      else bestDpaIdxAux rest bestDpa (i + 1) bestIdx

def bestDpaIdx (powers : List ChainPower) : Nat :=
  match powers with
  | [] => 0
  | p :: rest => bestDpaIdxAux rest p.dpa 1 0

def rotateChainToHighestDpa (chain : ChainResult) : ChainResult :=
  let powers := chain.powers
  if powers.length ≤ 1 then chain
  else
    let bestIdx := bestDpaIdx powers
    if bestIdx = 0 then chain
    else
      let rotated := powers.drop bestIdx ++ powers.take bestIdx
      let rotatedTimeline :=
        if chain.timeline.length = powers.length then
          chain.timeline.drop bestIdx ++ chain.timeline.take bestIdx
        else chain.timeline
      { chain with powers := rotated, timeline := rotatedTimeline }

theorem bestDpaIdxAux_spec (powers : List ChainPower) :
    ∀ (rest : List ChainPower) (i bestIdx : Nat),
      powers.drop i = rest → bestIdx < i →
      (∀ j, j < i →
        (powers.getD j default).dpa ≤ (powers.getD bestIdx default).dpa) →
      (bestDpaIdxAux rest (powers.getD bestIdx default).dpa i bestIdx
          < max i powers.length ∧
        ∀ j, j < powers.length →
          (powers.getD j default).dpa ≤
            (powers.getD
              (bestDpaIdxAux rest (powers.getD bestIdx default).dpa i bestIdx)
              default).dpa) := by
  intro rest
  induction rest with
  | nil =>
      intro i bestIdx hdrop hlt hbd
      constructor
      · simp only [bestDpaIdxAux]
        omega
      · intro j hj
        have hge : powers.length ≤ i := by
          by_contra hc
          push_neg at hc
          have := List.drop_eq_nil_iff.mp hdrop
          omega
        exact hbd j (by omega)
  | cons p rest' ih =>
      intro i bestIdx hdrop hlt hbd
      have hi : i < powers.length := by
        by_contra hc
        push_neg at hc
        rw [List.drop_eq_nil_of_le hc] at hdrop
        simp at hdrop
      have hcd := (List.getElem_cons_drop powers i hi).symm
      rw [hdrop] at hcd
      injection hcd with h3 h4
      have hdrop' : powers.drop (i + 1) = rest' := h4.symm
      have hpi : powers.getD i default = p := by
        rw [List.getD_eq_getElem powers default hi]
        exact h3.symm
      by_cases hgt : p.dpa > (powers.getD bestIdx default).dpa
      · simp only [bestDpaIdxAux, hgt, if_true]
        rw [← hpi]
        have hspec := ih (i + 1) i hdrop' (by omega)
          (fun j hj => by
            rcases Nat.lt_succ_iff_lt_or_eq.mp hj with hj' | hj'
            · exact le_of_lt (lt_of_le_of_lt (hbd j hj') (hpi ▸ hgt))
            · subst hj'; exact le_refl _)
        refine ⟨?_, hspec.2⟩
        have := hspec.1
        omega
      · simp only [bestDpaIdxAux, hgt, if_false]
        have hspec := ih (i + 1) bestIdx hdrop' (by omega)
          (fun j hj => by
            rcases Nat.lt_succ_iff_lt_or_eq.mp hj with hj' | hj'
            · exact hbd j hj'
            · subst hj'; rw [hpi]; exact not_lt.mp hgt)
        refine ⟨?_, hspec.2⟩
        have := hspec.1
        omega

theorem bestDpaIdx_spec (powers : List ChainPower) (hne : powers ≠ []) :
    bestDpaIdx powers < powers.length ∧
    ∀ j, j < powers.length →
      (powers.getD j default).dpa ≤
        (powers.getD (bestDpaIdx powers) default).dpa := by
  match powers, hne with
  | p :: rest, _ =>
      have h0 : (p :: rest).getD 0 default = p := rfl
      have hspec := bestDpaIdxAux_spec (p :: rest) rest 1 0 (by simp)
        (by omega) (fun j hj => by interval_cases j; exact le_refl _)
      rw [h0] at hspec
      refine ⟨?_, hspec.2⟩
      · have h1 := hspec.1
        simp only [bestDpaIdx]
        have : max 1 (p :: rest).length = (p :: rest).length := by
          simp [Nat.succ_le_iff]
        omega

/-- C7: `rotateChainToHighestDpa` returns a result whose powers list is
a cyclic rotation of the input beginning at an entry of maximal dpa, and
every recorded numeric field other than the order of the `powers` list
(and the correspondingly rotated timeline) is unchanged; the per-power
entries themselves are the unmodified records. -/
theorem rotateChain_cosmetic (c : ChainResult) :
    ∃ k : Nat,
      (rotateChainToHighestDpa c).powers = c.powers.rotate k ∧
      (∀ q ∈ c.powers, ∀ h : ChainPower,
        (rotateChainToHighestDpa c).powers.head? = some h → q.dpa ≤ h.dpa) ∧
      ((rotateChainToHighestDpa c).timeline = c.timeline.rotate k ∨
        (rotateChainToHighestDpa c).timeline = c.timeline) ∧
      (rotateChainToHighestDpa c).dps = c.dps ∧
      (rotateChainToHighestDpa c).totalDamage = c.totalDamage ∧
      (rotateChainToHighestDpa c).totalTime = c.totalTime ∧
      (rotateChainToHighestDpa c).eps = c.eps ∧
      (rotateChainToHighestDpa c).avgDefianceBuff = c.avgDefianceBuff ∧
      (rotateChainToHighestDpa c).length = c.length ∧
      (rotateChainToHighestDpa c).buffedDps = c.buffedDps ∧
      (rotateChainToHighestDpa c).buffUptime = c.buffUptime ∧
      (rotateChainToHighestDpa c).avgBuffMult = c.avgBuffMult ∧
      (rotateChainToHighestDpa c).buffPowerNames = c.buffPowerNames := by
  by_cases hlen : c.powers.length ≤ 1
  · refine ⟨0, ?_⟩
    have hrc : rotateChainToHighestDpa c = c := by
      simp only [rotateChainToHighestDpa, hlen, if_true]
    rw [hrc, List.rotate_zero]
    refine ⟨rfl, ?_, Or.inr rfl, rfl, rfl, rfl, rfl, rfl, rfl, rfl, rfl, rfl, rfl⟩
    intro q hq h hh
    obtain ⟨j, hj, rfl⟩ := List.mem_iff_getElem.mp hq
    have hj0 : j = 0 := by omega
    subst hj0
    rw [List.head?_eq_getElem?, List.getElem?_eq_getElem hj] at hh
    injection hh with hh
    rw [← hh]
  · have hne : c.powers ≠ [] := by
      intro hc; rw [hc] at hlen; simp at hlen
    obtain ⟨hblt, hbmax⟩ := bestDpaIdx_spec c.powers hne
    by_cases h0 : bestDpaIdx c.powers = 0
    · refine ⟨0, ?_⟩
      have hrc : rotateChainToHighestDpa c = c := by
        simp only [rotateChainToHighestDpa, hlen, if_false, h0, if_true]
      rw [hrc, List.rotate_zero]
      refine ⟨rfl, ?_, Or.inr rfl, rfl, rfl, rfl, rfl, rfl, rfl, rfl, rfl, rfl, rfl⟩
      intro q hq h hh
      obtain ⟨j, hj, rfl⟩ := List.mem_iff_getElem.mp hq
      have hmax := hbmax j hj
      rw [h0] at hmax
      have h0lt : 0 < c.powers.length := by omega
      rw [List.getD_eq_getElem _ default hj,
        List.getD_eq_getElem _ default h0lt] at hmax
      rw [List.head?_eq_getElem?, List.getElem?_eq_getElem h0lt] at hh
      injection hh with hh
      rw [← hh]
      exact hmax
    · set k := bestDpaIdx c.powers with hk
      refine ⟨k, ?_⟩
      have hrot : c.powers.drop k ++ c.powers.take k = c.powers.rotate k :=
        (List.rotate_eq_drop_append_take (le_of_lt hblt)).symm
      have htrot : (if c.timeline.length = c.powers.length then
            c.timeline.drop k ++ c.timeline.take k
          else c.timeline) = c.timeline.rotate k ∨
          (if c.timeline.length = c.powers.length then
            c.timeline.drop k ++ c.timeline.take k
          else c.timeline) = c.timeline := by
        by_cases htl : c.timeline.length = c.powers.length
        · left
          rw [if_pos htl]
          exact (List.rotate_eq_drop_append_take (by omega)).symm
        · right; rw [if_neg htl]
      have hrc : rotateChainToHighestDpa c =
          { c with
            powers := c.powers.drop k ++ c.powers.take k,
            timeline := if c.timeline.length = c.powers.length then
                c.timeline.drop k ++ c.timeline.take k
              else c.timeline } := by
        simp only [rotateChainToHighestDpa, hlen, if_false, ← hk, h0]
      rw [hrc]
      refine ⟨hrot, ?_, htrot, rfl, rfl, rfl, rfl, rfl, rfl, rfl, rfl, rfl, rfl⟩
      intro q hq h hh
      have hdk : c.powers.drop k = c.powers[k] :: c.powers.drop (k + 1) :=
        (List.getElem_cons_drop c.powers k hblt).symm
      rw [hdk] at hh
      simp only [List.cons_append, List.head?_cons, Option.some.injEq] at hh
      obtain ⟨j, hj, rfl⟩ := List.mem_iff_getElem.mp hq
      have hmax := hbmax j hj
      rw [List.getD_eq_getElem _ default hj,
        List.getD_eq_getElem _ default hblt] at hmax
      rw [← hh]
      exact hmax

/-- Sample chain result for the C7 witness. -/
def sampleChainPower (slug : String) (dpa : ℚ) : ChainPower :=
  { slug := slug, name := slug, damage := dpa, baseDamage := dpa,
    arcanaTime := 1, castTime := 1, rechargeTime := 2,
    effectiveRecharge := 2, enduranceCost := 1, dpa := dpa,
    effectArea := "SingleTarget", defianceBuff := 1, defiance := none }

def sampleChain : ChainResult :=
  { powers := [sampleChainPower "a" 5, sampleChainPower "b" 9],
    totalDamage := 14, totalTime := 2, dps := 7, eps := 1, length := 2,
    avgDefianceBuff := 1, timeline := [] }

/-- Witness for C7: the rotation property instantiated at a concrete
two-power result (the rotation starts at the higher-dpa entry and `dps`
is unchanged). -/
theorem rotateChain_cosmetic_w :
    (rotateChainToHighestDpa sampleChain).dps = sampleChain.dps ∧
    ∃ k : Nat, (rotateChainToHighestDpa sampleChain).powers =
      sampleChain.powers.rotate k := by
  obtain ⟨k, hpow, _, _, hdps, _⟩ := rotateChain_cosmetic sampleChain
  exact ⟨hdps, k, hpow⟩

end CohDps

namespace CohDps

/-! ## Deduplicator / canonicalizer (`normalizeChainKey` /
`minimalRepeatingUnit`, worker lines 921-941)

Source:
```
function normalizeChainKey(slugs) {
  const minimal = minimalRepeatingUnit(slugs);
  return minimal.slice().sort().join(',');
}
function minimalRepeatingUnit(arr) {
  const n = arr.length;
  for (let len = 1; len <= n / 2; len++) {
    if (n % len !== 0) continue;
    let isRepeat = true;
    for (let i = len; i < n; i++) {
      if (arr[i] !== arr[i % len]) { isRepeat = false; break; }
    }
    if (isRepeat) return arr.slice(0, len);
  }
  return arr;
}
```
JS `Array#sort()` without a comparator sorts lexicographically by code
units; for a total order whose equal elements are identical strings the
sorted permutation is unique, so any sorting algorithm with the same
comparator is value-faithful — we use `List.insertionSort (· ≤ ·)`. -/

def repeatCheckAll (arr : List String) (len : Nat) : Bool :=
  (List.range' len (arr.length - len)).all fun i =>
    if arr.getD i "" = arr.getD (i % len) "" then true else false

def minimalRepeatingUnit (arr : List String) : List String :=
  match (List.range' 1 (arr.length / 2)).find?
      (fun len => decide (arr.length % len = 0) && repeatCheckAll arr len) with
  | some len => arr.take len
  | none => arr

def sortJS (l : List String) : List String := List.insertionSort (· ≤ ·) l

def normalizeChainKey (slugs : List String) : String :=
  String.intercalate "," (sortJS (minimalRepeatingUnit slugs))

/-! ### Spec side: minimal repeating unit as the least divisor period -/

/-- `u` is a repeating-unit length for `arr`: positive, divides the
length, and repeating the `u`-prefix reproduces the whole sequence. -/
def IsRepUnit (arr : List String) (u : Nat) : Prop :=
  0 < u ∧ u ∣ arr.length ∧
    arr = (List.replicate (arr.length / u) (arr.take u)).flatten

instance (arr : List String) : DecidablePred (IsRepUnit arr) := fun _ => by
  unfold IsRepUnit; infer_instance

theorem exRepUnit (arr : List String) (h : arr ≠ []) : ∃ u, IsRepUnit arr u := by
  refine ⟨arr.length, List.length_pos.mpr h, dvd_refl _, ?_⟩
  rw [Nat.div_self (List.length_pos.mpr h)]
  simp

/-- The spec's smallest repeating-unit length (0 for the empty list). -/
def minPeriod (arr : List String) : Nat :=
  if h : arr = [] then 0 else Nat.find (exRepUnit arr h)

/-! ### The flatten-replicate representation and mod-periodicity -/

theorem getElem?_flatten_replicate (x : List String) :
    ∀ (k i : Nat), i < k * x.length →
      ((List.replicate k x).flatten)[i]? = x[i % x.length]? := by
  intro k
  induction k with
  | zero => intro i hi; omega
  | succ m ih =>
      intro i hi
      have hx : 0 < x.length := by
        rcases Nat.eq_zero_or_pos x.length with h0 | h0
        · rw [h0] at hi; omega
        · exact h0
      rw [List.replicate_succ, List.flatten_cons]
      have hexp : (m + 1) * x.length = m * x.length + x.length := by ring
      by_cases hlt : i < x.length
      · rw [List.getElem?_append, if_pos hlt, Nat.mod_eq_of_lt hlt]
      · push_neg at hlt
        rw [List.getElem?_append_right hlt, ih (i - x.length) (by omega)]
        congr 1
        conv_rhs => rw [show i = (i - x.length) + x.length by omega]
        rw [Nat.add_mod_right]

theorem length_flatten_replicate (x : List String) (k : Nat) :
    ((List.replicate k x).flatten).length = k * x.length := by
  simp [List.length_flatten, List.map_replicate, List.sum_replicate, smul_eq_mul]

/-- The workhorse: full mod-`u` periodicity is equivalent to the
flatten-replicate representation, for a positive divisor `u` of the
length. -/
theorem mod_iff_rep (arr : List String) (u : Nat) (hu : 0 < u)
    (hdvd : u ∣ arr.length) :
    (∀ i, i < arr.length → arr[i]? = arr[i % u]?) ↔
    arr = (List.replicate (arr.length / u) (arr.take u)).flatten := by
  rcases Nat.eq_zero_or_pos arr.length with hn | hn
  · have harr : arr = [] := List.length_eq_zero.mp hn
    subst harr
    simp
  have hule : u ≤ arr.length := Nat.le_of_dvd hn hdvd
  have htl : (arr.take u).length = u := by
    rw [List.length_take]; omega
  have hflen : ((List.replicate (arr.length / u) (arr.take u)).flatten).length
      = arr.length := by
    rw [length_flatten_replicate, htl, Nat.div_mul_cancel hdvd]
  constructor
  · intro hmod
    apply List.ext_getElem?
    intro i
    by_cases hi : i < arr.length
    · rw [getElem?_flatten_replicate _ _ _
        (by rw [htl, Nat.div_mul_cancel hdvd]; exact hi)]
      rw [htl, List.getElem?_take_of_lt (Nat.mod_lt i hu)]
      exact hmod i hi
    · push_neg at hi
      have h1 : arr[i]? = none := List.getElem?_eq_none_iff.mpr hi
      have h2 : ((List.replicate (arr.length / u) (arr.take u)).flatten)[i]?
          = none := List.getElem?_eq_none_iff.mpr (by rw [hflen]; omega)
      rw [h1, h2]
  · intro hrep i hi
    conv_lhs => rw [hrep]
    rw [getElem?_flatten_replicate _ _ _
      (by rw [htl, Nat.div_mul_cancel hdvd]; exact hi)]
    rw [htl, List.getElem?_take_of_lt (Nat.mod_lt i hu)]

end CohDps

namespace CohDps

theorem repeatCheck_iff (arr : List String) (len : Nat) (hl : 0 < len) :
    repeatCheckAll arr len = true ↔
      ∀ i, i < arr.length → arr[i]? = arr[i % len]? := by
  simp only [repeatCheckAll, List.all_eq_true]
  constructor
  · intro h i hi
    by_cases hlt : i < len
    · rw [Nat.mod_eq_of_lt hlt]
    · push_neg at hlt
      have hml : i % len < arr.length := by
        have := Nat.mod_lt i hl
        omega
      have hmem : i ∈ List.range' len (arr.length - len) := by
        rw [List.mem_range']
        exact ⟨i - len, by omega, by omega⟩
      have h2 := h i hmem
      have hgd : arr.getD i "" = arr.getD (i % len) "" := by
        by_contra hc
        simp only [hc, if_false] at h2
        exact absurd h2 (by simp)
      rw [List.getD_eq_getElem?_getD, List.getD_eq_getElem?_getD,
        List.getElem?_eq_getElem hi, List.getElem?_eq_getElem hml] at hgd
      simp only [Option.getD_some] at hgd
      rw [List.getElem?_eq_getElem hi, List.getElem?_eq_getElem hml, hgd]
  · intro h i hmem
    rw [List.mem_range'] at hmem
    obtain ⟨j, hj, rfl⟩ := hmem
    have hi : len + 1 * j < arr.length := by omega
    have hml : (len + 1 * j) % len < arr.length := by
      have := Nat.mod_lt (len + 1 * j) hl
      omega
    have h2 := h (len + 1 * j) hi
    rw [List.getElem?_eq_getElem hi, List.getElem?_eq_getElem hml] at h2
    simp only [Option.some.injEq] at h2
    rw [List.getD_eq_getElem?_getD, List.getD_eq_getElem?_getD,
      List.getElem?_eq_getElem hi, List.getElem?_eq_getElem hml]
    simp only [Option.getD_some, h2, if_true]

theorem find?_range'_first {p : Nat → Bool} : ∀ (n s a : Nat),
    s ≤ a → a < s + n → p a = true →
    (∀ b, s ≤ b → b < a → p b = false) →
    (List.range' s n).find? p = some a := by
  intro n
  induction n with
  | zero => intro s a h1 h2 _ _; omega
  | succ m ih =>
      intro s a h1 h2 hpa hmin
      rw [List.range'_succ]
      by_cases hs : s = a
      · subst hs
        rw [List.find?_cons_of_pos _ hpa]
      · have hps : ¬ (p s = true) := by
          rw [hmin s (le_refl s) (by omega)]; simp
        rw [List.find?_cons_of_neg _ hps]
        exact ih (s + 1) a (by omega) (by omega) hpa
          (fun b hb1 hb2 => hmin b (by omega) hb2)

/-- The predicate tested by the source's `for (let len ...)` loop agrees
with `IsRepUnit`. -/
theorem loopPred_iff (arr : List String) (len : Nat) (hl : 0 < len) :
    ((decide (arr.length % len = 0) && repeatCheckAll arr len) = true ↔
      IsRepUnit arr len) := by
  rw [Bool.and_eq_true, decide_eq_true_eq]
  constructor
  · rintro ⟨hdvd, hchk⟩
    have hdvd' : len ∣ arr.length := Nat.dvd_of_mod_eq_zero hdvd
    exact ⟨hl, hdvd',
      (mod_iff_rep arr len hl hdvd').mp ((repeatCheck_iff arr len hl).mp hchk)⟩
  · rintro ⟨_, hdvd, hrep⟩
    refine ⟨?_, (repeatCheck_iff arr len hl).mpr
      ((mod_iff_rep arr len hl hdvd).mpr hrep)⟩
    exact Nat.mod_eq_zero_of_dvd hdvd

theorem minPeriod_spec (arr : List String) (h : arr ≠ []) :
    IsRepUnit arr (minPeriod arr) ∧
      ∀ v, IsRepUnit arr v → minPeriod arr ≤ v := by
  rw [minPeriod, dif_neg h]
  exact ⟨Nat.find_spec (exRepUnit arr h),
    fun v hv => Nat.find_min' (exRepUnit arr h) hv⟩

theorem minPeriod_pos (arr : List String) (h : arr ≠ []) :
    0 < minPeriod arr := (minPeriod_spec arr h).1.1

theorem minPeriod_dvd (arr : List String) (h : arr ≠ []) :
    minPeriod arr ∣ arr.length := (minPeriod_spec arr h).1.2.1

theorem minPeriod_le_length (arr : List String) (h : arr ≠ []) :
    minPeriod arr ≤ arr.length :=
  Nat.le_of_dvd (List.length_pos.mpr h) (minPeriod_dvd arr h)

/-- Code = spec: the source's `minimalRepeatingUnit` returns exactly the
prefix of length `minPeriod`. -/
theorem minimalRepeatingUnit_eq (arr : List String) :
    minimalRepeatingUnit arr = arr.take (minPeriod arr) := by
  by_cases h : arr = []
  · subst h
    rfl
  have hn : 0 < arr.length := List.length_pos.mpr h
  obtain ⟨hspec, hmin⟩ := minPeriod_spec arr h
  set u := minPeriod arr with hu
  have hupos : 0 < u := hspec.1
  have hule : u ≤ arr.length := Nat.le_of_dvd hn hspec.2.1
  by_cases hhalf : u ≤ arr.length / 2
  · have hfind : (List.range' 1 (arr.length / 2)).find?
        (fun len => decide (arr.length % len = 0) && repeatCheckAll arr len)
        = some u := by
      apply find?_range'_first _ 1 u hupos (by omega)
      · exact (loopPred_iff arr u hupos).mpr hspec
      · intro b hb1 hb2
        by_contra hc
        rw [Bool.not_eq_false] at hc
        have := hmin b ((loopPred_iff arr b (by omega)).mp hc)
        omega
    rw [minimalRepeatingUnit, hfind]
  · push_neg at hhalf
    have hun : u = arr.length := by
      rcases Nat.lt_or_ge u arr.length with hlt | hge
      · exfalso
        obtain ⟨k, hk⟩ := hspec.2.1
        have hk2 : 2 ≤ k := by
          rcases Nat.lt_or_ge k 2 with hk2 | hk2
          · interval_cases k <;> omega
          · exact hk2
        have : 2 * u ≤ arr.length := by
          calc 2 * u ≤ k * u := Nat.mul_le_mul_right u hk2
          _ = arr.length := by rw [hk]; ring
        omega
      · omega
    have hfind : (List.range' 1 (arr.length / 2)).find?
        (fun len => decide (arr.length % len = 0) && repeatCheckAll arr len)
        = none := by
      rw [List.find?_eq_none]
      intro x hx
      rw [List.mem_range'] at hx
      obtain ⟨j, hj, rfl⟩ := hx
      intro hc
      have := hmin (1 + 1 * j) ((loopPred_iff arr (1 + 1 * j) (by omega)).mp hc)
      omega
    rw [minimalRepeatingUnit, hfind, hun, List.take_length]

end CohDps

namespace CohDps

/-! ### Full periods, translations, and the gcd (Fine-Wilf) argument -/

/-- `p` is a full period of `w`: every entry equals the entry at the
index reduced mod `p`. -/
def FullPeriod (w : List String) (p : Nat) : Prop :=
  ∀ i, i < w.length → w[i]? = w[i % p]?

theorem fullPeriod_of_repUnit {w : List String} {p : Nat}
    (h : IsRepUnit w p) : FullPeriod w p :=
  (mod_iff_rep w p h.1 h.2.1).mpr h.2.2

theorem repUnit_of_fullPeriod {w : List String} {p : Nat} (hp : 0 < p)
    (hdvd : p ∣ w.length) (h : FullPeriod w p) : IsRepUnit w p :=
  ⟨hp, hdvd, (mod_iff_rep w p hp hdvd).mp h⟩

theorem fullPeriod_shift {w : List String} {p : Nat} (hp : 0 < p)
    (hdvd : p ∣ w.length) (h : FullPeriod w p) :
    ∀ i, i < w.length → w[(i + p) % w.length]? = w[i]? := by
  intro i hi
  have hN : 0 < w.length := by omega
  have hj : (i + p) % w.length < w.length := Nat.mod_lt _ hN
  rw [h _ hj, h i hi]
  congr 1
  rw [Nat.mod_mod_of_dvd _ hdvd, Nat.add_mod_right]

theorem fullPeriod_shift_many {w : List String} {p : Nat} (hp : 0 < p)
    (hdvd : p ∣ w.length) (h : FullPeriod w p) :
    ∀ (k : Nat) (i : Nat), i < w.length → w[(i + k * p) % w.length]? = w[i]? := by
  intro k
  induction k with
  | zero =>
      intro i hi
      rw [Nat.zero_mul, Nat.add_zero, Nat.mod_eq_of_lt hi]
  | succ m ih =>
      intro i hi
      have hN : 0 < w.length := by omega
      have hstep : (i + (m + 1) * p) % w.length =
          (((i + m * p) % w.length) + p) % w.length := by
        conv_lhs => rw [show i + (m + 1) * p = (i + m * p) + p by ring]
        rw [Nat.add_mod (i + m * p) p, Nat.add_mod ((i + m * p) % w.length) p,
          Nat.mod_mod_of_dvd _ (dvd_refl w.length)]
      rw [hstep, fullPeriod_shift hp hdvd h _ (Nat.mod_lt _ hN), ih i hi]

/-- A natural-number Bezout identity with slack: for `gcd p q ∣ c` and a
positive modulus `N`, there are naturals `k`, `l`, `s` with
`k p + l q = c + s N`. -/
theorem bezout_mod (p q N c : Nat) (hN : 0 < N) (h : Nat.gcd p q ∣ c) :
    ∃ k l s : Nat, k * p + l * q = c + s * N := by
  set g := Nat.gcd p q with hg
  obtain ⟨t, ht⟩ := h
  set A := Nat.gcdA p q with hA
  set B := Nat.gcdB p q with hB
  have hbez : (g : ℤ) = p * A + q * B := Nat.gcd_eq_gcd_ab p q
  set j : Nat := (A * t).natAbs + (B * t).natAbs with hj
  have hx : (0 : ℤ) ≤ A * t + j * N := by
    have h2 : ((A * t).natAbs : ℤ) ≤ (j : ℤ) * N := by
      have hj1 : (A * t).natAbs ≤ j := by omega
      calc ((A * t).natAbs : ℤ) ≤ (j : ℤ) := by exact_mod_cast hj1
        _ ≤ (j : ℤ) * N :=
          le_mul_of_one_le_right (by positivity) (by exact_mod_cast hN)
    omega
  have hy : (0 : ℤ) ≤ B * t + j * N := by
    have h2 : ((B * t).natAbs : ℤ) ≤ (j : ℤ) * N := by
      have hj1 : (B * t).natAbs ≤ j := by omega
      calc ((B * t).natAbs : ℤ) ≤ (j : ℤ) := by exact_mod_cast hj1
        _ ≤ (j : ℤ) * N :=
          le_mul_of_one_le_right (by positivity) (by exact_mod_cast hN)
    omega
  refine ⟨(A * t + j * N).toNat, (B * t + j * N).toNat, j * (p + q), ?_⟩
  have hcast : ((A * t + j * N).toNat * p + (B * t + j * N).toNat * q : ℤ) =
      (c : ℤ) + (j * (p + q)) * N := by
    rw [Int.toNat_of_nonneg hx, Int.toNat_of_nonneg hy]
    have hc : (c : ℤ) = (g : ℤ) * t := by exact_mod_cast ht
    rw [hc, hbez]
    push_cast
    ring
  exact_mod_cast hcast

/-- The gcd of two full divisor periods is a full period (a Fine-Wilf
style argument via index translations). -/
theorem fullPeriod_gcd {w : List String} {p q : Nat} (hp : 0 < p)
    (hq : 0 < q) (hpd : p ∣ w.length) (hqd : q ∣ w.length)
    (hP : FullPeriod w p) (hQ : FullPeriod w q) :
    FullPeriod w (Nat.gcd p q) := by
  intro i hi
  set N := w.length with hN
  have hNpos : 0 < N := by omega
  set g := Nat.gcd p q with hg
  have hgpos : 0 < g := Nat.gcd_pos_of_pos_left _ hp
  have hmd : i = i % g + g * (i / g) := (Nat.mod_add_div i g).symm
  have hdc : g ∣ (i - i % g) := ⟨i / g, by omega⟩
  obtain ⟨k, l, s, hkls⟩ := bezout_mod p q N (i - i % g) hNpos hdc
  have him : i % g < N := by
    have := Nat.mod_lt i hgpos
    omega
  have h1 := fullPeriod_shift_many hp hpd hP k (i % g) him
  have h2 := fullPeriod_shift_many hq hqd hQ l ((i % g + k * p) % N)
    (Nat.mod_lt _ hNpos)
  have hidx : (((i % g + k * p) % N) + l * q) % N = i := by
    rw [Nat.add_mod ((i % g + k * p) % N) (l * q),
      Nat.mod_mod_of_dvd _ (dvd_refl N), ← Nat.add_mod]
    rw [show i % g + k * p + l * q = i % g + (k * p + l * q) by ring, hkls]
    rw [show i % g + (i - i % g + s * N) = i + s * N by omega]
    rw [Nat.add_mul_mod_self_right, Nat.mod_eq_of_lt hi]
  rw [hidx] at h2
  rw [h2, h1]

end CohDps

namespace CohDps

/-! ### Conjugation of repeated words under rotation -/

def joinRep (k : Nat) (x : List String) : List String :=
  (List.replicate k x).flatten

theorem joinRep_zero (x : List String) : joinRep 0 x = [] := rfl

theorem joinRep_succ (k : Nat) (x : List String) :
    joinRep (k + 1) x = x ++ joinRep k x := by
  simp [joinRep, List.replicate_succ]

theorem joinRep_length (k : Nat) (x : List String) :
    (joinRep k x).length = k * x.length :=
  length_flatten_replicate x k

theorem joinRep_add (a b : Nat) (x : List String) :
    joinRep (a + b) x = joinRep a x ++ joinRep b x := by
  induction a with
  | zero => simp [joinRep_zero]
  | succ m ih =>
      rw [show m + 1 + b = (m + b) + 1 by ring, joinRep_succ, ih, joinRep_succ]
      simp [List.append_assoc]

theorem joinRep_joinRep (m k : Nat) (x : List String) :
    joinRep m (joinRep k x) = joinRep (m * k) x := by
  induction m with
  | zero => simp [joinRep_zero]
  | succ p ih =>
      rw [joinRep_succ, ih, show (p + 1) * k = k + p * k by ring, joinRep_add]

theorem joinRep_append_swap (k : Nat) (x : List String) :
    joinRep k x ++ x = x ++ joinRep k x := by
  induction k with
  | zero => simp [joinRep_zero]
  | succ m ih =>
      rw [joinRep_succ]
      simp only [List.append_assoc, ih]

theorem take_joinRep (k : Nat) (x : List String) (hk : 0 < k) :
    (joinRep k x).take x.length = x := by
  match k, hk with
  | m + 1, _ =>
      rw [joinRep_succ, List.take_left]

/-- Conjugation: rotating a `k`-fold repetition by `a.length` where the
unit splits as `a ++ b` yields the `k`-fold repetition of `b ++ a`. -/
theorem conj_joinRep (k : Nat) (a b : List String) :
    joinRep (k + 1) (a ++ b) = a ++ joinRep k (b ++ a) ++ b := by
  induction k with
  | zero => simp [joinRep_succ, joinRep_zero]
  | succ m ih =>
      rw [joinRep_succ, ih, joinRep_succ]
      simp [List.append_assoc]

theorem rotate_joinRep_unit (k : Nat) (x : List String) :
    (joinRep k x).rotate x.length = joinRep k x := by
  match k with
  | 0 => simp [joinRep_zero]
  | m + 1 =>
      rcases Nat.eq_zero_or_pos x.length with hx | hx
      · simp [List.length_eq_zero.mp hx]
      · rw [List.rotate_eq_drop_append_take
          (by rw [joinRep_length]; nlinarith)]
        rw [joinRep_succ, List.drop_left, List.take_left, joinRep_append_swap]

theorem rotate_joinRep_mul (q k : Nat) (x : List String) :
    (joinRep k x).rotate (q * x.length) = joinRep k x := by
  induction q with
  | zero => simp
  | succ m ih =>
      rw [show (m + 1) * x.length = m * x.length + x.length by ring,
        ← List.rotate_rotate, ih, rotate_joinRep_unit]

theorem rotate_joinRep_conj (k r : Nat) (x : List String) (hr : r ≤ x.length) :
    (joinRep k x).rotate r = joinRep k (x.rotate r) := by
  match k with
  | 0 => simp [joinRep_zero]
  | m + 1 =>
      have hla : (x.take r).length = r := by
        rw [List.length_take]; omega
      have hrot : x.rotate r = x.drop r ++ x.take r :=
        List.rotate_eq_drop_append_take hr
      have hexp : joinRep (m + 1) x = x.take r ++ (x.drop r ++ joinRep m x) := by
        rw [joinRep_succ, ← List.append_assoc, List.take_append_drop]
      rw [List.rotate_eq_drop_append_take
        (by
          rw [joinRep_length]
          have hle : x.length ≤ (m + 1) * x.length :=
            Nat.le_mul_of_pos_left _ (by omega)
          omega)]
      rw [hexp, List.drop_left' hla, List.take_left' hla]
      rw [hrot, conj_joinRep m (x.drop r) (x.take r), List.take_append_drop]

end CohDps

namespace CohDps

theorem joinRep_def (k : Nat) (x : List String) :
    joinRep k x = (List.replicate k x).flatten := rfl

theorem arr_eq_joinRep (arr : List String) (h : arr ≠ []) :
    arr = joinRep (arr.length / minPeriod arr) (arr.take (minPeriod arr)) :=
  (minPeriod_spec arr h).1.2.2

theorem take_minPeriod_length (arr : List String) (h : arr ≠ []) :
    (arr.take (minPeriod arr)).length = minPeriod arr := by
  rw [List.length_take]
  have := minPeriod_le_length arr h
  omega

theorem quot_pos (arr : List String) (h : arr ≠ []) :
    0 < arr.length / minPeriod arr :=
  Nat.div_pos (minPeriod_le_length arr h) (minPeriod_pos arr h)


theorem take_joinRep' (k : Nat) (x : List String) (u : Nat)
    (hu : x.length = u) (hk : 0 < k) : (joinRep k x).take u = x := by
  subst hu
  exact take_joinRep k x hk

theorem rotate_ne_nil (arr : List String) (h : arr ≠ []) (j : Nat) :
    arr.rotate j ≠ [] := by
  intro hc
  have hlen2 := congrArg List.length hc
  rw [List.length_rotate] at hlen2
  simp only [List.length_nil] at hlen2
  exact h (List.length_eq_zero.mp hlen2)

/-- Structure of a rotated sequence: rotating the whole cycle is
rotating the minimal unit (by the amount reduced mod cycle and unit
lengths). -/
theorem rotate_structure (arr : List String) (h : arr ≠ []) (j : Nat) :
    arr.rotate j = joinRep (arr.length / minPeriod arr)
      ((arr.take (minPeriod arr)).rotate (j % arr.length % minPeriod arr)) := by
  have hn : 0 < arr.length := List.length_pos.mpr h
  have hu : 0 < minPeriod arr := minPeriod_pos arr h
  have hxlen := take_minPeriod_length arr h
  set q := j % arr.length / minPeriod arr with hq
  set r := j % arr.length % minPeriod arr with hr
  have hfix : arr.rotate (minPeriod arr * q) = arr := by
    have h2 := rotate_joinRep_mul q (arr.length / minPeriod arr)
      (arr.take (minPeriod arr))
    rw [hxlen] at h2
    calc arr.rotate (minPeriod arr * q)
        = (joinRep (arr.length / minPeriod arr)
            (arr.take (minPeriod arr))).rotate (q * minPeriod arr) := by
          rw [← arr_eq_joinRep arr h, Nat.mul_comm]
      _ = joinRep (arr.length / minPeriod arr) (arr.take (minPeriod arr)) := h2
      _ = arr := (arr_eq_joinRep arr h).symm
  have hconj := rotate_joinRep_conj (arr.length / minPeriod arr) r
    (arr.take (minPeriod arr)) (by rw [hxlen]; exact le_of_lt (Nat.mod_lt _ hu))
  calc arr.rotate j
      = arr.rotate (j % arr.length) := (List.rotate_mod arr j).symm
    _ = (arr.rotate (minPeriod arr * q)).rotate r := by
        rw [List.rotate_rotate, Nat.div_add_mod]
    _ = arr.rotate r := by rw [hfix]
    _ = (joinRep (arr.length / minPeriod arr)
          (arr.take (minPeriod arr))).rotate r := by
        rw [← arr_eq_joinRep arr h]
    _ = joinRep (arr.length / minPeriod arr)
          ((arr.take (minPeriod arr)).rotate r) := hconj

theorem rotate_take_unit (arr : List String) (h : arr ≠ []) (j : Nat) :
    (arr.rotate j).take (minPeriod arr) =
      (arr.take (minPeriod arr)).rotate (j % arr.length % minPeriod arr) := by
  rw [rotate_structure arr h j]
  refine take_joinRep' _ _ _ ?_ (quot_pos arr h)
  rw [List.length_rotate]
  exact take_minPeriod_length arr h

theorem minPeriod_rotate_le (arr : List String) (h : arr ≠ []) (j : Nat) :
    minPeriod (arr.rotate j) ≤ minPeriod arr := by
  refine (minPeriod_spec (arr.rotate j) (rotate_ne_nil arr h j)).2 (minPeriod arr)
    ⟨minPeriod_pos arr h, ?_, ?_⟩
  · rw [List.length_rotate]
    exact minPeriod_dvd arr h
  · rw [← joinRep_def, rotate_take_unit arr h j, List.length_rotate]
    exact rotate_structure arr h j

theorem minPeriod_rotate (arr : List String) (h : arr ≠ []) (j : Nat) :
    minPeriod (arr.rotate j) = minPeriod arr := by
  have hn : 0 < arr.length := List.length_pos.mpr h
  refine le_antisymm (minPeriod_rotate_le arr h j) ?_
  have hjm := Nat.mod_lt j hn
  have hback : (arr.rotate j).rotate (arr.length - j % arr.length) = arr := by
    rw [List.rotate_rotate, ← List.rotate_mod]
    have hz : (j + (arr.length - j % arr.length)) % arr.length = 0 := by
      rw [Nat.add_mod]
      by_cases hj0 : j % arr.length = 0
      · rw [hj0]
        simp [Nat.mod_self]
      · rw [Nat.mod_eq_of_lt
          (show arr.length - j % arr.length < arr.length by omega)]
        rw [show j % arr.length + (arr.length - j % arr.length) = arr.length
          by omega]
        exact Nat.mod_self _
    rw [hz, List.rotate_zero]
  conv_lhs => rw [← hback]
  exact minPeriod_rotate_le (arr.rotate j) (rotate_ne_nil arr h j) _

theorem sortJS_eq_of_perm (l₁ l₂ : List String) (h : l₁.Perm l₂) :
    sortJS l₁ = sortJS l₂ := by
  apply List.eq_of_perm_of_sorted
    ((List.perm_insertionSort _ l₁).trans
      (h.trans (List.perm_insertionSort _ l₂).symm))
    (List.sorted_insertionSort _ l₁) (List.sorted_insertionSort _ l₂)

theorem normalizeChainKey_rotate (arr : List String) (j : Nat) :
    normalizeChainKey (arr.rotate j) = normalizeChainKey arr := by
  by_cases h : arr = []
  · subst h; rw [List.rotate_nil]
  · rw [normalizeChainKey, normalizeChainKey, minimalRepeatingUnit_eq,
      minimalRepeatingUnit_eq, minPeriod_rotate arr h j,
      rotate_take_unit arr h j]
    congr 1
    exact sortJS_eq_of_perm _ _ (List.rotate_perm _ _)

theorem joinRep_as_cons (arr : List String) (m : Nat) (hm : 0 < m) :
    joinRep m arr = arr ++ joinRep (m - 1) arr := by
  rw [← joinRep_succ]
  congr 1
  omega

theorem minPeriod_joinRep (arr : List String) (h : arr ≠ []) (m : Nat)
    (hm : 0 < m) : minPeriod (joinRep m arr) = minPeriod arr := by
  have hn : 0 < arr.length := List.length_pos.mpr h
  have hu : 0 < minPeriod arr := minPeriod_pos arr h
  have hwlen : (joinRep m arr).length = m * arr.length := joinRep_length _ _
  have hwne : joinRep m arr ≠ [] := by
    intro hc
    have hl := congrArg List.length hc
    rw [hwlen] at hl
    simp only [List.length_nil] at hl
    rcases Nat.mul_eq_zero.mp hl with h1 | h1 <;> omega
  have h1 : joinRep m arr =
      joinRep (m * (arr.length / minPeriod arr)) (arr.take (minPeriod arr)) := by
    conv_lhs => rw [arr_eq_joinRep arr h]
    rw [joinRep_joinRep]
  have htk : (joinRep m arr).take (minPeriod arr) = arr.take (minPeriod arr) := by
    rw [h1]
    exact take_joinRep' _ _ _ (take_minPeriod_length arr h)
      (Nat.mul_pos hm (quot_pos arr h))
  have hle : minPeriod (joinRep m arr) ≤ minPeriod arr := by
    refine (minPeriod_spec _ hwne).2 _ ⟨hu, ?_, ?_⟩
    · rw [hwlen]
      exact Dvd.dvd.mul_left (minPeriod_dvd arr h) m
    · rw [← joinRep_def, htk, hwlen,
        Nat.mul_div_assoc m (minPeriod_dvd arr h)]
      exact h1
  refine le_antisymm hle ?_
  set v := minPeriod (joinRep m arr) with hv
  have hvspec := (minPeriod_spec (joinRep m arr) hwne).1
  have hPv : FullPeriod (joinRep m arr) v := fullPeriod_of_repUnit hvspec
  have hndvd : arr.length ∣ (joinRep m arr).length := by
    rw [hwlen]
    exact dvd_mul_left arr.length m
  have htkn : (joinRep m arr).take arr.length = arr := by
    rw [joinRep_as_cons arr m hm]
    exact List.take_left arr _
  have hPn : FullPeriod (joinRep m arr) arr.length := by
    apply fullPeriod_of_repUnit
    refine ⟨hn, hndvd, ?_⟩
    rw [htkn, hwlen, Nat.mul_div_cancel _ hn, ← joinRep_def]
  have hg := fullPeriod_gcd (minPeriod_pos _ hwne) hn hvspec.2.1 hndvd hPv hPn
  have hgdvdn : Nat.gcd v arr.length ∣ arr.length := Nat.gcd_dvd_right _ _
  have hgpos : 0 < Nat.gcd v arr.length :=
    Nat.gcd_pos_of_pos_left _ (minPeriod_pos _ hwne)
  have hgle : Nat.gcd v arr.length ≤ arr.length := Nat.le_of_dvd hn hgdvdn
  have hPrefix : FullPeriod arr (Nat.gcd v arr.length) := by
    intro i hi
    have hig : i % Nat.gcd v arr.length < arr.length := by
      have := Nat.mod_lt i hgpos
      omega
    have hw1 : arr[i]? = (joinRep m arr)[i]? := by
      rw [joinRep_as_cons arr m hm, List.getElem?_append, if_pos hi]
    have hw2 : arr[i % Nat.gcd v arr.length]? =
        (joinRep m arr)[i % Nat.gcd v arr.length]? := by
      rw [joinRep_as_cons arr m hm, List.getElem?_append, if_pos hig]
    rw [hw1, hw2]
    refine hg i ?_
    rw [hwlen]
    calc i < arr.length := hi
      _ ≤ m * arr.length := Nat.le_mul_of_pos_left _ hm
  have hrepg : IsRepUnit arr (Nat.gcd v arr.length) :=
    repUnit_of_fullPeriod hgpos hgdvdn hPrefix
  calc minPeriod arr ≤ Nat.gcd v arr.length := (minPeriod_spec arr h).2 _ hrepg
    _ ≤ v := Nat.le_of_dvd (minPeriod_pos _ hwne) (Nat.gcd_dvd_left _ _)

theorem normalizeChainKey_joinRep (arr : List String) (m : Nat) (hm : 0 < m) :
    normalizeChainKey (joinRep m arr) = normalizeChainKey arr := by
  by_cases h : arr = []
  · subst h
    have hz : joinRep m ([] : List String) = [] := by
      have hl := joinRep_length m ([] : List String)
      simp only [List.length_nil, Nat.mul_zero] at hl
      exact List.length_eq_zero.mp hl
    rw [hz]
  · have h1 : joinRep m arr =
        joinRep (m * (arr.length / minPeriod arr)) (arr.take (minPeriod arr)) := by
      conv_lhs => rw [arr_eq_joinRep arr h]
      rw [joinRep_joinRep]
    have htk : (joinRep m arr).take (minPeriod arr) = arr.take (minPeriod arr) := by
      rw [h1]
      exact take_joinRep' _ _ _ (take_minPeriod_length arr h)
        (Nat.mul_pos hm (quot_pos arr h))
    rw [normalizeChainKey, normalizeChainKey, minimalRepeatingUnit_eq,
      minimalRepeatingUnit_eq, minPeriod_joinRep arr h m hm, htk]

end CohDps

namespace CohDps

/-- C3: Canonicalization. For every non-empty slug sequence,
`normalizeChainKey` is the comma-joined JS sort of the minimal repeating
unit — the shortest prefix whose length divides the sequence length and
whose repetition reproduces the sequence (`minPeriod` with its
defining property and minimality) — and the key is invariant under
every cyclic rotation and under every positive integer repetition; in
particular the keys of [A,B,C], [B,C,A], [C,A,B] coincide, and the key
of [A,B,A,B] equals the key of [A,B]. -/
theorem normalizeChainKey_canonical :
    (∀ arr : List String, arr ≠ [] →
      IsRepUnit arr (minPeriod arr) ∧
      (∀ v, IsRepUnit arr v → minPeriod arr ≤ v) ∧
      normalizeChainKey arr =
        String.intercalate "," (sortJS (arr.take (minPeriod arr)))) ∧
    (∀ (arr : List String) (j : Nat),
      normalizeChainKey (arr.rotate j) = normalizeChainKey arr) ∧
    (∀ (arr : List String) (m : Nat), 0 < m →
      normalizeChainKey (joinRep m arr) = normalizeChainKey arr) ∧
    normalizeChainKey ["A", "B", "C"] = normalizeChainKey ["B", "C", "A"] ∧
    normalizeChainKey ["B", "C", "A"] = normalizeChainKey ["C", "A", "B"] ∧
    normalizeChainKey ["A", "B", "A", "B"] = normalizeChainKey ["A", "B"] := by
  have hr1 : (["B", "C", "A"] : List String) =
      (["A", "B", "C"] : List String).rotate 1 := by decide
  have hr2 : (["C", "A", "B"] : List String) =
      (["A", "B", "C"] : List String).rotate 2 := by decide
  have hj : (["A", "B", "A", "B"] : List String) = joinRep 2 ["A", "B"] := by
    decide
  refine ⟨?_, normalizeChainKey_rotate,
    fun arr m hm => normalizeChainKey_joinRep arr m hm, ?_, ?_, ?_⟩
  · intro arr h
    exact ⟨(minPeriod_spec arr h).1, (minPeriod_spec arr h).2,
      by rw [normalizeChainKey, minimalRepeatingUnit_eq]⟩
  · rw [hr1, normalizeChainKey_rotate]
  · rw [hr1, hr2, normalizeChainKey_rotate, normalizeChainKey_rotate]
  · rw [hj, normalizeChainKey_joinRep _ 2 (by decide)]

theorem normalizeChainKey_canonical_w :
    ((["A", "B"] : List String) ≠ [] ∧
      IsRepUnit ["A", "B"] (minPeriod ["A", "B"])) ∧
    (0 < 2 ∧
      normalizeChainKey (joinRep 2 ["A", "B"]) = normalizeChainKey ["A", "B"]) :=
  ⟨⟨by decide, (normalizeChainKey_canonical.1 ["A", "B"] (by decide)).1⟩,
    ⟨by decide, normalizeChainKey_canonical.2.2.1 ["A", "B"] 2 (by decide)⟩⟩

end CohDps

namespace CohDps

/-! ## Overlay simulator: simulateChainWithBuffOverlay -/

/-- `t.toLowerCase()` at the character-list level. -/
def lowerStr (s : String) : String := ⟨s.data.map Char.toLower⟩

/-- `key === 'ranged_ones' || key === 'melee_ones'` on the lower-cased
table name. -/
def isDefianceTable (t : String) : Bool :=
  if lowerStr t = "ranged_ones" ∨ lowerStr t = "melee_ones" then true else false

/-- The resolved per-buff-power record the overlay loop consumes. -/
structure BuffInfo where
  slug : String
  name : String
  arcanaTime : ℚ
  effectiveRecharge : ℚ
  buffScale : ℚ
  buffDuration : ℚ
  buffStacking : String
  deriving Repr, DecidableEq

/-- `buffPowers.map(...)`: the first non-Defiance-table buff, else the
first buff, else zeroes. -/
def mkBuffInfo (p : Power) : BuffInfo :=
  let dmgBuff : Option BuffEntry :=
    match p.buffs.find? fun b => if isDefianceTable b.table then false else true with
    | some b => some b
    | none => p.buffs[0]?
  { slug := p.slug, name := p.name, arcanaTime := p.arcanaTime,
    effectiveRecharge := p.effectiveRecharge,
    buffScale := match dmgBuff with | some b => b.resolvedScale | none => 0,
    buffDuration := match dmgBuff with | some b => b.duration | none => 0,
    buffStacking := match dmgBuff with | some b => b.stacking | none => "Stack" }

/-- A `{slug, scale, expiresAt}` object in the overlay's two buff pools. -/
structure OvBuff where
  slug : String
  scale : ℚ
  expiresAt : ℚ
  deriving Repr, DecidableEq

/-- The mutable locals of the overlay's while-loop.  `measureStartActual`
uses the source's `-1` sentinel. -/
structure OvState where
  currentTime : ℚ
  chainIndex : Nat
  defianceBuffs : List OvBuff
  clickBuffs : List OvBuff
  buffCooldowns : List (String × ℚ)
  attackCooldowns : List (String × ℚ)
  measureDamage : ℚ
  measureStartActual : ℚ
  clickBuffActiveTime : ℚ
  deriving Repr, DecidableEq

/-- `Math.max(...buffPowers.map(p => p.effectiveRecharge))` (the caller
guards against the empty list). -/
def maxRecharge : List Power → ℚ
  | [] => 0
  | p :: rest => (rest.map (·.effectiveRecharge)).foldl max p.effectiveRecharge

/-- The `for (const buff of buffInfos)` loop that fires every ready buff
power (cooldown elapsed and positive scale) before the next attack. -/
def fireBuffs (lat : ℚ) : List BuffInfo → OvState → OvState
  | [], st => st
  | b :: rest, st =>
      let st' :=
        if cdLookup st.buffCooldowns b.slug ≤ st.currentTime ∧ b.buffScale > 0 then
          let t1 := st.currentTime + (b.arcanaTime + lat)
          let cbs :=
            if b.buffStacking = "Replace" then
              st.clickBuffs.filter fun x => if x.slug = b.slug then false else true
            else st.clickBuffs
          { st with
            currentTime := t1,
            clickBuffs := cbs ++ [⟨b.slug, b.buffScale, t1 + b.buffDuration⟩],
            buffCooldowns := (b.slug, t1 + b.effectiveRecharge) :: st.buffCooldowns }
        else st
      fireBuffs lat rest st'

/-- One iteration of the overlay while-loop: record the measurement start,
fire ready buffs, then fire the next chain attack (wait, expire, additive
multiplier, measurement accumulation, Defiance push, cooldown, advance).
`none` models the source crashing on an empty chain (`chainPowers[NaN]`). -/
def overlayIter (bis : List BuffInfo) (cps : List ChainPower)
    (lat measureStartTime : ℚ) (st : OvState) : Option OvState :=
  let isMeasuring : Bool := if measureStartTime ≤ st.currentTime then true else false
  let st0 :=
    if isMeasuring = true ∧ st.measureStartActual < 0 then
      { st with measureStartActual := st.currentTime }
    else st
  let st1 := fireBuffs lat bis st0
  match cps[st1.chainIndex % cps.length]? with
  | none => none
  | some power =>
      let readyAt := cdLookup st1.attackCooldowns power.slug
      let t1 := if readyAt > st1.currentTime then readyAt else st1.currentTime
      let dbs := st1.defianceBuffs.filter fun b =>
        if b.expiresAt > t1 then true else false
      let cbs := st1.clickBuffs.filter fun b =>
        if b.expiresAt > t1 then true else false
      let clickBuffBonus : ℚ := cbs.foldl (fun s b => s + b.scale) 0
      let totalMult : ℚ := 1 + dbs.foldl (fun s b => s + b.scale) 0 + clickBuffBonus
      let effectiveDamage := power.baseDamage * totalMult
      let attackTime := power.arcanaTime + lat
      let md := if isMeasuring = true then st1.measureDamage + effectiveDamage
        else st1.measureDamage
      let cbat :=
        if isMeasuring = true ∧ clickBuffBonus > 0 then
          st1.clickBuffActiveTime + attackTime
        else st1.clickBuffActiveTime
      let dbs2 :=
        match power.defiance with
        | some dfn =>
            if dfn.scale > 0 then
              let nb : OvBuff := ⟨power.slug, dfn.scale, t1 + dfn.duration⟩
              if dfn.stacking = "Replace" then
                (dbs.filter fun b =>
                  if b.slug = power.slug then false else true) ++ [nb]
              else dbs ++ [nb]
            else dbs
        | none => dbs
      some { currentTime := t1 + attackTime,
             chainIndex := st1.chainIndex + 1,
             defianceBuffs := dbs2,
             clickBuffs := cbs,
             buffCooldowns := st1.buffCooldowns,
             attackCooldowns :=
               (power.slug, t1 + power.effectiveRecharge) :: st1.attackCooldowns,
             measureDamage := md,
             measureStartActual := st1.measureStartActual,
             clickBuffActiveTime := cbat }

/-- The fuelled `while (currentTime < simDuration)` loop; `none` when the
fuel runs out or an iteration fails. -/
def overlayLoop (bis : List BuffInfo) (cps : List ChainPower)
    (lat simDuration measureStartTime : ℚ) : Nat → OvState → Option OvState
  | 0, st => if st.currentTime < simDuration then none else some st
  | fuel + 1, st =>
      if st.currentTime < simDuration then
        match overlayIter bis cps lat measureStartTime st with
        | none => none
        | some st' =>
            overlayLoop bis cps lat simDuration measureStartTime fuel st'
      else some st

structure OverlayResult where
  dpsWithBuffs : ℚ
  buffUptime : ℚ
  avgBuffMult : ℚ
  deriving Repr, DecidableEq

/-- `simulateChainWithBuffOverlay(chainResult, buffPowers, lat)`, with an
explicit fuel bound on the while-loop. -/
def simulateChainWithBuffOverlay (fuel : Nat) (chainResult : ChainResult)
    (buffPowers : List Power) (activationLatency : ℚ) : Option OverlayResult :=
  match buffPowers with
  | [] => some ⟨chainResult.dps, 0, 1⟩
  | _ :: _ =>
    let maxBuffRecharge := maxRecharge buffPowers
    let simDuration :=
      maxBuffRecharge * ((BUFF_WARMUP_CYCLES : ℚ) + (BUFF_MEASURE_CYCLES : ℚ))
    let measureStartTime := maxBuffRecharge * (BUFF_WARMUP_CYCLES : ℚ)
    let bis := buffPowers.map mkBuffInfo
    match overlayLoop bis chainResult.powers activationLatency simDuration
        measureStartTime fuel ⟨0, 0, [], [], [], [], 0, -1, 0⟩ with
    | none => none
    | some st =>
        let totalMeasureTime := st.currentTime -
          (if st.measureStartActual ≥ 0 then st.measureStartActual
           else measureStartTime)
        let dpsWithBuffs :=
          if totalMeasureTime > 0 then st.measureDamage / totalMeasureTime
          else chainResult.dps
        let buffUptime :=
          if totalMeasureTime > 0 then st.clickBuffActiveTime / totalMeasureTime
          else 0
        let totalClickScale := bis.foldl (fun s b => s + b.buffScale) 0
        some ⟨dpsWithBuffs, buffUptime, 1 + totalClickScale * buffUptime⟩

end CohDps

namespace CohDps

/-- An attack with 1s quantized cast, no cooldown, 100 damage, no
self-buff: as a lone chain it measures 100 dps. -/
def overlayAtkA : Power :=
  { slug := "a", name := "A", totalDamage := 100, castTime := 1, arcanaTime := 1,
    rechargeTime := 0, enhRecharge := 0, effectiveRecharge := 0,
    activationLatency := 0, enduranceCost := 0, dpa := 100, effectArea := "ST",
    defiance := none, buffs := [], isMelee := false }

/-- The chain-entry view of `overlayAtkA`. -/
def overlayCpA : ChainPower :=
  { slug := "a", name := "A", damage := 100, baseDamage := 100, arcanaTime := 1,
    castTime := 1, rechargeTime := 0, effectiveRecharge := 0, enduranceCost := 0,
    dpa := 100, effectArea := "ST", defianceBuff := 1, defiance := none }

/-- The base chain result for `[overlayAtkA]`: 100 damage every second. -/
def overlayBaseResult : ChainResult :=
  { powers := [overlayCpA], totalDamage := 100, totalTime := 1, dps := 100,
    eps := 0, length := 1, avgDefianceBuff := 1, timeline := [] }

/-- A buff power with a positive click-damage fraction (1%), 1s cast,
4s recharge, 0.5s buff duration. -/
def overlayBuffB : Power :=
  { slug := "b", name := "B", totalDamage := 0, castTime := 1, arcanaTime := 1,
    rechargeTime := 4, enhRecharge := 0, effectiveRecharge := 4,
    activationLatency := 0, enduranceCost := 0, dpa := 0, effectArea := "ST",
    defiance := none,
    buffs := [⟨"damage", 1/100, 1/2, "Stack"⟩], isMelee := false }

/-- C6 counterexample: overlaying the non-empty buff list `[overlayBuffB]`,
whose bonus fractions are all strictly positive, onto the 100-dps base
chain `[overlayAtkA]` yields `dpsWithBuffs = 167/2 = 83.5 < 100`: the
overlay does NOT monotonically improve throughput, because firing the
buff costs cast time (1s per 4s cycle) while its 1% bonus only covers
0.5s.  The base result's dps and per-power data agree with the defiance
simulator on `[overlayAtkA]`. -/
theorem overlay_monotonic_cex :
    ([overlayBuffB] ≠ ([] : List Power)) ∧
    (∀ p ∈ [overlayBuffB], ∀ b ∈ p.buffs, 0 < b.resolvedScale) ∧
    overlayBaseResult.dps = (simulateChainWithDefiance [overlayAtkA]).dps ∧
    overlayBaseResult.powers.map
        (fun q => (q.slug, q.baseDamage, q.arcanaTime, q.effectiveRecharge)) =
      [overlayAtkA].map
        (fun p => (p.slug, p.totalDamage, p.arcanaTime, p.effectiveRecharge)) ∧
    simulateChainWithBuffOverlay 20 overlayBaseResult [overlayBuffB] 0 =
      some ⟨167/2, 1/6, 601/600⟩ ∧
    (167 : ℚ)/2 < overlayBaseResult.dps := by
  have hd : isDefianceTable "damage" = false := by decide
  have hab : ("a" : String) ≠ "b" := by decide
  have hba : ("b" : String) ≠ "a" := by decide
  refine ⟨by simp, ?_, ?_, ?_, ?_, by norm_num [overlayBaseResult]⟩
  · intro p hp b hb
    simp only [List.mem_singleton] at hp
    subst hp
    simp only [overlayBuffB, List.mem_singleton] at hb
    subst hb
    norm_num
  · norm_num [overlayBaseResult, simulateChainWithDefiance, simulateWarmup,
      runCycles, runCycle, runPower, cdLookup, initState,
      DEFIANCE_WARMUP_CYCLES, overlayAtkA]
  · norm_num [overlayBaseResult, overlayCpA, overlayAtkA]
  · norm_num [simulateChainWithBuffOverlay, overlayLoop, overlayIter,
      fireBuffs, cdLookup, mkBuffInfo, maxRecharge, overlayBaseResult,
      overlayCpA, overlayBuffB, hd, hab, hba,
      BUFF_WARMUP_CYCLES, BUFF_MEASURE_CYCLES]

end CohDps

namespace CohDps

/-- The overlay loop's pools only ever hold nonnegative bonus scales, and
the measured damage accumulator stays nonnegative. -/
def OvPoolsNonneg (st : OvState) : Prop :=
  (∀ b ∈ st.defianceBuffs, 0 ≤ b.scale) ∧
  (∀ b ∈ st.clickBuffs, 0 ≤ b.scale) ∧ 0 ≤ st.measureDamage

theorem mem_ite_filter {α : Type} (c : Prop) [Decidable c] (l : List α)
    (p : α → Bool) (x : α) (hx : x ∈ if c then l.filter p else l) : x ∈ l := by
  split at hx
  · exact List.mem_of_mem_filter hx
  · exact hx

theorem foldl_scale_shift (rest : List OvBuff) : ∀ a c : ℚ,
    rest.foldl (fun s x => s + x.scale) (a + c) =
      rest.foldl (fun s x => s + x.scale) a + c := by
  induction rest with
  | nil => intro a c; rfl
  | cons y ys ihy =>
      intro a c
      simp only [List.foldl_cons]
      rw [show a + c + y.scale = a + y.scale + c by ring, ihy]

theorem foldl_ovScale_nonneg (l : List OvBuff) (h : ∀ b ∈ l, 0 ≤ b.scale) :
    0 ≤ l.foldl (fun s b => s + b.scale) 0 := by
  induction l with
  | nil => simp
  | cons b rest ih =>
      have hb : 0 ≤ b.scale := h b (List.mem_cons_self b rest)
      have hrest := ih fun x hx => h x (List.mem_cons_of_mem b hx)
      simp only [List.foldl_cons, zero_add]
      rw [show b.scale = 0 + b.scale by ring, foldl_scale_shift]
      linarith

theorem fireBuffs_inv (lat : ℚ) (bis : List BuffInfo) : ∀ st : OvState,
    OvPoolsNonneg st → OvPoolsNonneg (fireBuffs lat bis st) := by
  induction bis with
  | nil => intro st h; exact h
  | cons b rest ih =>
      intro st h
      rw [fireBuffs]
      apply ih
      split
      · next hc =>
          refine ⟨h.1, ?_, h.2.2⟩
          intro x hx
          rcases List.mem_append.mp hx with hx1 | hx1
          · exact h.2.1 x (mem_ite_filter _ _ _ _ hx1)
          · rcases List.mem_singleton.mp hx1 with rfl
            exact le_of_lt hc.2
      · exact h

theorem overlayIter_inv (bis : List BuffInfo) (cps : List ChainPower)
    (lat mst : ℚ) (st st' : OvState)
    (hdmg : ∀ p ∈ cps, 0 ≤ p.baseDamage)
    (hit : overlayIter bis cps lat mst st = some st')
    (hst : OvPoolsNonneg st) : OvPoolsNonneg st' := by
  have h0 : OvPoolsNonneg
      (if (if mst ≤ st.currentTime then true else false) = true ∧
          st.measureStartActual < 0 then
        { st with measureStartActual := st.currentTime } else st) := by
    by_cases hc : (if mst ≤ st.currentTime then true else false) = true ∧
        st.measureStartActual < 0
    · rw [if_pos hc]
      exact ⟨hst.1, hst.2.1, hst.2.2⟩
    · rw [if_neg hc]
      exact hst
  have h1 := fireBuffs_inv lat bis _ h0
  simp only [overlayIter] at hit
  split at hit
  · exact absurd hit (by simp)
  · next power heq =>
      have hpmem : power ∈ cps := by
        rcases List.getElem?_eq_some.mp heq with ⟨hlt, hget⟩
        exact hget ▸ List.getElem_mem hlt
      have hpb : 0 ≤ power.baseDamage := hdmg power hpmem
      rw [Option.some.injEq] at hit
      subst hit
      set st1 := fireBuffs lat bis
        (if (if mst ≤ st.currentTime then true else false) = true ∧
            st.measureStartActual < 0 then
          { st with measureStartActual := st.currentTime } else st) with hst1
      set t1 := if cdLookup st1.attackCooldowns power.slug > st1.currentTime
        then cdLookup st1.attackCooldowns power.slug else st1.currentTime with ht1
      have hdbs : ∀ x ∈ st1.defianceBuffs.filter
          (fun b => if b.expiresAt > t1 then true else false), 0 ≤ x.scale :=
        fun x hx => h1.1 x (List.mem_of_mem_filter hx)
      have hcbs : ∀ x ∈ st1.clickBuffs.filter
          (fun b => if b.expiresAt > t1 then true else false), 0 ≤ x.scale :=
        fun x hx => h1.2.1 x (List.mem_of_mem_filter hx)
      refine ⟨?_, hcbs, ?_⟩
      · intro x hx
        simp only at hx
        split at hx
        · next dfn =>
            split at hx
            · next hpos =>
                split at hx
                · rcases List.mem_append.mp hx with hx1 | hx1
                  · exact hdbs x (List.mem_of_mem_filter hx1)
                  · rcases List.mem_singleton.mp hx1 with rfl
                    exact le_of_lt hpos
                · rcases List.mem_append.mp hx with hx1 | hx1
                  · exact hdbs x hx1
                  · rcases List.mem_singleton.mp hx1 with rfl
                    exact le_of_lt hpos
            · exact hdbs x hx
        · exact hdbs x hx
      · simp only
        have hsum1 := foldl_ovScale_nonneg _ hdbs
        have hsum2 := foldl_ovScale_nonneg _ hcbs
        have hmult : (0:ℚ) ≤ 1 +
            (st1.defianceBuffs.filter
              (fun b => if b.expiresAt > t1 then true else false)).foldl
                (fun s b => s + b.scale) 0 +
            (st1.clickBuffs.filter
              (fun b => if b.expiresAt > t1 then true else false)).foldl
                (fun s b => s + b.scale) 0 := by linarith
        have hmd := h1.2.2
        have hdm := mul_nonneg hpb hmult
        split
        · rw [if_pos rfl]
          linarith
        · rw [if_neg (by simp : ¬(false = true))]
          exact hmd

theorem overlayLoop_inv (bis : List BuffInfo) (cps : List ChainPower)
    (lat simD mst : ℚ) (hdmg : ∀ p ∈ cps, 0 ≤ p.baseDamage) :
    ∀ (fuel : Nat) (st st' : OvState),
      overlayLoop bis cps lat simD mst fuel st = some st' →
      OvPoolsNonneg st → OvPoolsNonneg st' := by
  intro fuel
  induction fuel with
  | zero =>
      intro st st' h hst
      rw [overlayLoop] at h
      split at h
      · exact absurd h (by simp)
      · rw [Option.some.injEq] at h
        exact h ▸ hst
  | succ n ih =>
      intro st st' h hst
      rw [overlayLoop] at h
      split at h
      · split at h
        · exact absurd h (by simp)
        · next st1 hit =>
            exact ih st1 st' h (overlayIter_inv _ _ _ _ _ _ hdmg hit hst)
      · rw [Option.some.injEq] at h
        exact h ▸ hst

set_option maxHeartbeats 1600000 in
/-- C6 amended: the overlay throughput need not improve on the base
throughput (see the counterexample), but it is never negative: for every
fuel bound, base chain result with nonnegative dps and per-power base
damages, buff list and latency, a completed overlay run reports
`dpsWithBuffs ≥ 0`. -/
theorem overlay_dps_nonneg (fuel : Nat) (c : ChainResult)
    (bps : List Power) (lat : ℚ) (res : OverlayResult)
    (hdps : 0 ≤ c.dps)
    (hdmg : ∀ p ∈ c.powers, 0 ≤ p.baseDamage)
    (h : simulateChainWithBuffOverlay fuel c bps lat = some res) :
    0 ≤ res.dpsWithBuffs := by
  cases bps with
  | nil =>
      rw [simulateChainWithBuffOverlay, Option.some.injEq] at h
      subst h
      exact hdps
  | cons b0 bs =>
      simp only [simulateChainWithBuffOverlay] at h
      split at h
      · exact absurd h (by simp)
      · next st hloop =>
          have hinv : OvPoolsNonneg st :=
            overlayLoop_inv _ _ _ _ _ hdmg fuel _ st hloop
              ⟨by simp, by simp, le_refl 0⟩
          rw [Option.some.injEq] at h
          subst h
          simp only
          split
          · split
            · rename_i hpos
              exact div_nonneg hinv.2.2 (le_of_lt hpos)
            · exact hdps
          · split
            · rename_i hpos
              exact div_nonneg hinv.2.2 (le_of_lt hpos)
            · exact hdps

theorem overlay_dps_nonneg_w :
    (0:ℚ) ≤ ChainResult.dps ⟨[], 0, 0, 0, 0, 0, 0, [], none, none, none, none⟩ ∧
    0 ≤ OverlayResult.dpsWithBuffs ⟨0, 0, 1⟩ :=
  ⟨le_refl 0,
    overlay_dps_nonneg 0 ⟨[], 0, 0, 0, 0, 0, 0, [], none, none, none, none⟩
      [] 0 ⟨0, 0, 1⟩ (le_refl 0)
      (fun p hp => absurd hp (List.not_mem_nil p)) rfl⟩

end CohDps

namespace CohDps

/-! ## Search driver: isChainWorthSimulating, searchChains,
deduplicateChains, optimizeChains -/

/-- The `counts[slug] = {count, recharge}` object built by
`isChainWorthSimulating`: ordered insertion, the recharge of the first
occurrence, one count per occurrence. -/
def addCount (l : List (String × Nat × ℚ)) (slug : String) (r : ℚ) :
    List (String × Nat × ℚ) :=
  match l with
  | [] => [(slug, 1, r)]
  | (s, c, rc) :: rest =>
      if s = slug then (s, c + 1, rc) :: rest
      else (s, c, rc) :: addCount rest slug r

/-- `isChainWorthSimulating(chain)`: a repeated action whose
`count * recharge` exceeds `castTime * MAX_WAIT_RATIO` makes the chain
not worth simulating. -/
def isChainWorthSimulating (chain : List Power) : Bool :=
  let latency := chainLatency chain
  let castTime := chain.foldl (fun sum p => sum + p.arcanaTime + latency) 0
  let counts := chain.foldl (fun acc p => addCount acc p.slug p.effectiveRecharge) []
  counts.all fun e =>
    if 1 < e.2.1 ∧ (e.2.1 : ℚ) * e.2.2 > castTime * maxWaitFactor then false
    else true

/-- The inner `for (let i = length-1; i >= 0; i--)` decode of a combo
number into base-`n` digits, most significant first. -/
def decodeCombo (n : Nat) : Nat → Nat → List Nat
  | 0, _ => []
  | len + 1, combo => decodeCombo n len (combo / n) ++ [combo % n]

/-- The result-entry object `searchChains` pushes (lines 583–606). -/
def mkChainEntry (len : Nat) (chain : List Power) (sim : SimResult) :
    ChainResult :=
  { powers := chain.enum.map fun ip =>
      { slug := ip.2.slug, name := ip.2.name,
        damage := sim.perPowerDamage.getD ip.1 0,
        baseDamage := ip.2.totalDamage, arcanaTime := ip.2.arcanaTime,
        castTime := ip.2.castTime, rechargeTime := ip.2.rechargeTime,
        effectiveRecharge := ip.2.effectiveRecharge,
        enduranceCost := ip.2.enduranceCost,
        dpa := sim.perPowerDamage.getD ip.1 0 / ip.2.arcanaTime,
        effectArea := ip.2.effectArea,
        defianceBuff := sim.perPowerDefianceMult.getD ip.1 0,
        defiance := ip.2.defiance },
    totalDamage := sim.totalDamage,
    totalTime := sim.totalTime,
    dps := sim.dps,
    eps := chain.foldl (fun s p => s + p.enduranceCost) 0 / sim.totalTime,
    length := len,
    avgDefianceBuff := sim.avgDefianceMult,
    timeline := sim.events }

/-- `searchChains`'s mutable pair `(bestDpsThisLength, lengthResults)`. -/
structure SearchAcc where
  bestDps : ℚ
  chains : List ChainResult
  deriving Repr, DecidableEq

/-- One iteration of the `for (let combo = 0; ...)` loop: decode, DPA
upper-bound prune, feasibility filters, simulate, competitiveness prune,
push, periodic prune. -/
def searchStep (powers : List Power) (len : Nat) (topN : Nat)
    (acc : SearchAcc) (combo : Nat) : SearchAcc :=
  let chain := (decodeCombo powers.length len combo).map
    fun i => powers.getD i default
  if acc.bestDps > 0 ∧
      chain.foldl (fun s p => s + p.totalDamage) 0 * 1.3 /
          chain.foldl (fun s p => s + p.arcanaTime) 0 <
        acc.bestDps * dpsPruneFrac then acc
  else if isChainFeasible chain = false ∧ isChainWorthSimulating chain = false
    then acc
  else
    let sim := simulateChainWithDefiance chain
    if sim.dps < acc.bestDps * dpsPruneFrac ∧ topN ≤ acc.chains.length then acc
    else
      let best1 := if sim.dps > acc.bestDps then sim.dps else acc.bestDps
      let results1 := acc.chains ++ [mkChainEntry len chain sim]
      if MAX_RESULTS_PER_LENGTH * 2 ≤ results1.length then
        let pruned := (List.insertionSort (fun a b => b.dps ≤ a.dps)
          results1).take MAX_RESULTS_PER_LENGTH
        { bestDps := match pruned[0]? with | some e => e.dps | none => best1,
          chains := pruned }
      else { bestDps := best1, chains := results1 }

/-- `searchChains(powers, length, totalCombos, maxDpa, globalBestDps,
passLabel, topN)` (the `maxDpa` and label arguments are unused by the
source's loop body). -/
def searchChains (powers : List Power) (len totalCombos : Nat)
    (maxDpa globalBestDps : ℚ) (topN : Nat) : SearchAcc :=
  let _ := maxDpa
  (List.range totalCombos).foldl (searchStep powers len topN)
    ⟨globalBestDps, []⟩

/-- `deduplicateChains` keeps the first chain of each canonical key. -/
def dedupAux : List ChainResult → List String → List ChainResult
  | [], _ => []
  | c :: rest, seen =>
      let key := normalizeChainKey (c.powers.map (·.slug))
      if key ∈ seen then dedupAux rest seen
      else c :: dedupAux rest (key :: seen)

def deduplicateChains (chains : List ChainResult) : List ChainResult :=
  dedupAux chains []

/-- `powers.map(...)` at the top of `optimizeChains`: effective recharge
from slotted enhancement and global reduction, plus latency. -/
def powerWithRecharge (rr lat : ℚ) (p : Power) : Power :=
  { p with
    effectiveRecharge := p.rechargeTime / (1 + p.enhRecharge / 100 + rr / 100),
    activationLatency := lat }

/-- `Math.max(...powersWithRecharge.map(p => p.dpa || 0))` (the caller
guards against the empty list). -/
def maxDpaOf : List Power → ℚ
  | [] => 0
  | p :: rest => (rest.map (·.dpa)).foldl max p.dpa

/-- The JS-truthy sort key `(b.buffedDps || b.dps)`. -/
def buffedKey (c : ChainResult) : ℚ :=
  match c.buffedDps with
  | some b => if b = 0 then c.dps else b
  | none => c.dps

/-- `optimizeChains(powers, buffPowers, rechargeReduction,
activationLatency, passLabel, topN)`: empty input returns `[]`; else the
per-length search, global sort, dedup, top-N slice, display rotation and
optional buff overlay (fuelled; `none` models a non-terminating overlay
loop). -/
def optimizeChains (fuel : Nat) (powers buffPowers : List Power)
    (rechargeReduction activationLatency : ℚ) (topN : Nat) :
    Option (List ChainResult) :=
  let topN1 := if topN = 0 then TOP_N else topN
  match powers with
  | [] => some []
  | _ :: _ =>
    let pwr := powers.map (powerWithRecharge rechargeReduction activationLatency)
    let preparedBuffs :=
      buffPowers.map (powerWithRecharge rechargeReduction activationLatency)
    let _ := maxDpaOf pwr
    let step := fun (acc : ℚ × List ChainResult) (len : Nat) =>
      let totalCombos := pwr.length ^ len
      if totalCombos > MAX_COMBOS_PER_LENGTH then acc
      else
        let lr := searchChains pwr len totalCombos (maxDpaOf pwr) acc.1 topN1
        (if lr.bestDps > acc.1 then lr.bestDps else acc.1, acc.2 ++ lr.chains)
    let results := ((List.range' 1 MAX_CHAIN_LENGTH).foldl step (0, [])).2
    let sorted := List.insertionSort (fun a b => b.dps ≤ a.dps) results
    let unique := deduplicateChains sorted
    let topChains := (unique.take topN1).map rotateChainToHighestDpa
    match preparedBuffs with
    | [] => some topChains
    | _ :: _ =>
      match topChains.mapM (fun c =>
        match simulateChainWithBuffOverlay fuel c preparedBuffs
            activationLatency with
        | none => none
        | some ov => some { c with
            buffedDps := some ov.dpsWithBuffs,
            buffUptime := some ov.buffUptime,
            avgBuffMult := some ov.avgBuffMult,
            buffPowerNames := some (preparedBuffs.map (·.name)) }) with
      | none => none
      | some withOv =>
          some (List.insertionSort (fun a b => buffedKey b ≤ buffedKey a) withOv)

end CohDps

namespace CohDps

/-- C8 counterexample: on an empty candidate list `optimizeChains`
returns the normal value `[]` — the same type of result as a completed
search — instead of failing fast with an InvalidInput error.  The
embedding is total (`some` = normal completion): no error channel is
exercised at all. -/
theorem optimize_empty_cex :
    optimizeChains 0 [] [] 0 0 5 = some [] := rfl

/-- C8 amended: for every fuel bound, buff list, recharge reduction,
latency and top-N, an empty candidate list makes `optimizeChains`
return normally with the empty result list (the guard
`if (!powers || powers.length === 0) return []` runs before any
search); no InvalidInput error is raised and the caller receives a
plain empty list. -/
theorem optimize_empty_amended (fuel : Nat) (bps : List Power)
    (rr lat : ℚ) (topN : Nat) :
    optimizeChains fuel [] bps rr lat topN = some [] := rfl

/-- An action with zero quantized duration, zero recharge, zero latency
and positive damage: its simulated cycles take zero elapsed time. -/
def pzPower : Power :=
  { slug := "z", name := "Z", totalDamage := 5, castTime := 0, arcanaTime := 0,
    rechargeTime := 0, enhRecharge := 0, effectiveRecharge := 0,
    activationLatency := 0, enduranceCost := 0, dpa := 0, effectArea := "ST",
    defiance := none, buffs := [], isMelee := false }

/-- C9 counterexample: `searchChains` on the zero-duration action
`pzPower` (length 1, one combo) pushes and keeps a result entry whose
simulated elapsed time is exactly 0 — the degenerate sequence is ranked,
not discarded.  (In the source this entry's `dps = 5/0` propagates as a
JavaScript `Infinity` into the ranking; the rational embedding records
the entry's `totalTime = 0` directly.) -/
theorem zeroTime_ranked_cex :
    pzPower.arcanaTime = 0 ∧
    (searchChains [pzPower] 1 1 0 0 5).chains.map (fun e => e.totalTime) =
      [0] := by
  constructor
  · norm_num [pzPower]
  · norm_num [searchChains, searchStep, decodeCombo, mkChainEntry,
      isChainFeasible, isChainWorthSimulating, addCount, chainLatency,
      chainTotalTime, buildUsages, addUsage, usageGapOk, cdLookup,
      simulateChainWithDefiance, simulateWarmup, runCycles, runCycle,
      runPower, initState, DEFIANCE_WARMUP_CYCLES, MAX_RESULTS_PER_LENGTH,
      dpsPruneFrac, maxWaitFactor, pzPower, List.range_succ]

/-- Every record of one simulator pass waited a nonnegative time. -/
theorem runCycle_waits_nonneg (chain : List Power) : ∀ st : SimState,
    ∀ r ∈ (runCycle st chain).2, 0 ≤ r.waitBefore := by
  induction chain with
  | nil => intro st r hr; simp [runCycle] at hr
  | cons p rest ih =>
      intro st r hr
      simp only [runCycle] at hr
      rcases List.mem_cons.mp hr with hr1 | hr1
      · exact hr1 ▸ runPower_wait_nonneg st p
      · exact ih (runPower st p).1 r hr1

/-- C9 amended: for every non-empty sequence whose quantized durations
are all strictly positive and whose per-activation latencies are all
nonnegative, the measurement pass's elapsed time is strictly positive,
so the `dps = totalDamage / totalTime` entering ranking is a
well-defined finite rational.  (The source has no defensive guard: a
zero-elapsed sequence is pushed and ranked, as the counterexample
shows, rather than discarded.) -/
theorem measured_time_pos (chain : List Power) (hne : chain ≠ [])
    (hpos : ∀ p ∈ chain, 0 < p.arcanaTime)
    (hlat : ∀ p ∈ chain, 0 ≤ p.activationLatency) :
    0 < (simulateChainWithDefiance chain).totalTime := by
  have hcast : 0 < chainCastSum chain := by
    rcases chain with _ | ⟨p, rest⟩
    · exact absurd rfl hne
    · have hp := hpos p (List.mem_cons_self p rest)
      have hl := hlat p (List.mem_cons_self p rest)
      have hrest : 0 ≤ (rest.map fun q => q.arcanaTime + q.activationLatency).sum := by
        apply List.sum_nonneg
        intro x hx
        rcases List.mem_map.mp hx with ⟨q, hq, rfl⟩
        have h1 := hpos q (List.mem_cons_of_mem p hq)
        have h2 := hlat q (List.mem_cons_of_mem p hq)
        linarith
      simp only [chainCastSum, List.map_cons, List.sum_cons]
      linarith
  have hwaits : 0 ≤ (((runCycle (runCycles initState chain
      DEFIANCE_WARMUP_CYCLES).1 chain).2).map (·.waitBefore)).sum := by
    apply List.sum_nonneg
    intro x hx
    rcases List.mem_map.mp hx with ⟨r, hr, rfl⟩
    exact runCycle_waits_nonneg chain _ r hr
  show 0 < (simulateWarmup DEFIANCE_WARMUP_CYCLES chain).totalTime
  simp only [simulateWarmup]
  rw [runCycle_time]
  linarith

theorem measured_time_pos_w :
    ([feasA 2, feasB] ≠ ([] : List Power)) ∧
    (∀ p ∈ [feasA 2, feasB], 0 < p.arcanaTime) ∧
    (∀ p ∈ [feasA 2, feasB], 0 ≤ p.activationLatency) ∧
    0 < (simulateChainWithDefiance [feasA 2, feasB]).totalTime := by
  have h1 : ∀ p ∈ [feasA 2, feasB], 0 < p.arcanaTime := by
    intro p hp
    rcases List.mem_cons.mp hp with rfl | hp1
    · norm_num [feasA]
    · rcases List.mem_cons.mp hp1 with rfl | hp2
      · norm_num [feasB, feasA]
      · simp at hp2
  have h2 : ∀ p ∈ [feasA 2, feasB], 0 ≤ p.activationLatency := by
    intro p hp
    rcases List.mem_cons.mp hp with rfl | hp1
    · norm_num [feasA]
    · rcases List.mem_cons.mp hp1 with rfl | hp2
      · norm_num [feasB, feasA]
      · simp at hp2
  exact ⟨by simp, h1, h2,
    measured_time_pos [feasA 2, feasB] (by simp) h1 h2⟩

end CohDps
